import Mathlib

/-!
Verification of the log-structured key-value storage engine
(`4_kvs_log_server_multithread/src/storage/kv_log.rs` together with the
record codec `serialize.rs` shared across the server crates).

The embedding is a shallow one: Rust strings are modelled as their UTF-8
byte sequences (`List Nat`, every byte < 256), files as byte lists, the
file system as a map from segment index to an optional byte list, and the
storage engine as a state structure together with pure transition
functions that mirror the Rust control flow line by line.  The engine is
exercised sequentially (one writer, no in-flight compaction), matching
the specification's sequences of storage operations; the compactor is
modelled as its own transition on the same state type.
-/

namespace KvLog

/-- Bytes are natural numbers; every byte produced by the model is < 256. -/
abbrev Byte := Nat

/-- `MAX_SEGMENT_SIZE` from kv_log.rs. -/
def MAX_SEGMENT_SIZE : Nat := 4000000

/-- `DEFAULT_FILE_IDX` from kv_log.rs. -/
def DEFAULT_FILE_IDX : Nat := 1

/-- Big-endian four-byte encoding of a `u32` value (`u32::to_be_bytes`
composed with the `as u32` truncation of `String::len`). -/
def u32Bytes (n : Nat) : List Byte :=
  [n / 2 ^ 24 % 256, n / 2 ^ 16 % 256, n / 2 ^ 8 % 256, n % 256]

/-- `u32::from_be_bytes`; the `% 256` reflects that the source bytes are `u8`. -/
def u32OfBytes (b3 b2 b1 b0 : Nat) : Nat :=
  ((b3 % 256 * 256 + b2 % 256) * 256 + b1 % 256) * 256 + b0 % 256

theorem u32Bytes_length (n : Nat) : (u32Bytes n).length = 4 := rfl

theorem u32OfBytes_u32Bytes (n : Nat) (h : n < 2 ^ 32) :
    u32OfBytes (n / 2 ^ 24 % 256) (n / 2 ^ 16 % 256) (n / 2 ^ 8 % 256) (n % 256) = n := by
  unfold u32OfBytes
  omega

/-- A UTF-8 continuation byte (`0x80..=0xBF`). -/
def contByte (b : Nat) : Bool := 128 ≤ b && b ≤ 191

/-- UTF-8 validity exactly as checked by Rust's `String::from_utf8`
(RFC 3629: surrogates and overlong encodings are rejected). -/
def validUtf8 : List Byte → Bool
  | [] => true
  | b :: bs =>
    if b < 128 then validUtf8 bs
    else if 194 ≤ b && b ≤ 223 then
      match bs with
      | c1 :: bs1 => contByte c1 && validUtf8 bs1
      | [] => false
    else if b = 224 then
      match bs with
      | c1 :: c2 :: bs2 => (160 ≤ c1 && c1 ≤ 191) && contByte c2 && validUtf8 bs2
      | _ => false
    else if 225 ≤ b && b ≤ 236 then
      match bs with
      | c1 :: c2 :: bs2 => contByte c1 && contByte c2 && validUtf8 bs2
      | _ => false
    else if b = 237 then
      match bs with
      | c1 :: c2 :: bs2 => (128 ≤ c1 && c1 ≤ 159) && contByte c2 && validUtf8 bs2
      | _ => false
    else if 238 ≤ b && b ≤ 239 then
      match bs with
      | c1 :: c2 :: bs2 => contByte c1 && contByte c2 && validUtf8 bs2
      | _ => false
    else if b = 240 then
      match bs with
      | c1 :: c2 :: c3 :: bs3 =>
        (144 ≤ c1 && c1 ≤ 191) && contByte c2 && contByte c3 && validUtf8 bs3
      | _ => false
    else if 241 ≤ b && b ≤ 243 then
      match bs with
      | c1 :: c2 :: c3 :: bs3 => contByte c1 && contByte c2 && contByte c3 && validUtf8 bs3
      | _ => false
    else if b = 244 then
      match bs with
      | c1 :: c2 :: c3 :: bs3 =>
        (128 ≤ c1 && c1 ≤ 143) && contByte c2 && contByte c3 && validUtf8 bs3
      | _ => false
    else false

/-- The `Command` enum from models.rs; keys and values carry the UTF-8
bytes of the Rust `String`s. -/
inductive Command : Type where
  | set (key value : List Byte)
  | get (key : List Byte)
  | remove (key : List Byte)
  | reset
deriving DecidableEq, Repr

/-- `impl WriteToStream for String`: big-endian `u32` byte length followed
by the bytes. -/
def stringSerialize (s : List Byte) : List Byte := u32Bytes s.length ++ s

/-- `serialize` from serialize.rs.  The Rust function returns `Result` but
every arm returns `Ok`, so the model is total.  Tags: `s` = 115, `g` = 103,
`r` = 114, `z` = 122. -/
def serialize : Command → List Byte
  | .set k v => 115 :: (stringSerialize k ++ stringSerialize v)
  | .get k => 103 :: stringSerialize k
  | .remove k => 114 :: stringSerialize k
  | .reset => [122]

/-- `get_value_offset` from serialize.rs: for `Set`, tag byte + `u32` key
length prefix + key bytes. -/
def getValueOffset : Command → Option Nat
  | .set k _ => some (1 + 4 + k.length)
  | _ => none

/-- `impl ReadFromStream for String`: `read_exact` a 4-byte big-endian
length, `read_exact` that many bytes, validate UTF-8.  Returns the parsed
string together with the unconsumed remainder of the stream. -/
def stringDeserialize (bs : List Byte) : Except Unit (List Byte × List Byte) :=
  match bs with
  | b3 :: b2 :: b1 :: b0 :: rest =>
    let size := u32OfBytes b3 b2 b1 b0
    if size ≤ rest.length then
      if validUtf8 (rest.take size) then .ok (rest.take size, rest.drop size)
      else .error ()
    else .error ()
  | _ => .error ()

/-- `deserialize` from serialize.rs: one tag byte (end of stream at this
point yields `none`), then the tag-specific payload.  Unknown tags are an
error. -/
def deserialize (bs : List Byte) : Except Unit (Option (Command × List Byte)) :=
  match bs with
  | [] => .ok none
  | t :: rest =>
    if t = 115 then
      match stringDeserialize rest with
      | .ok (k, r1) =>
        match stringDeserialize r1 with
        | .ok (v, r2) => .ok (some (.set k v, r2))
        | .error e => .error e
      | .error e => .error e
    else if t = 114 then
      match stringDeserialize rest with
      | .ok (k, r1) => .ok (some (.remove k, r1))
      | .error e => .error e
    else if t = 103 then
      match stringDeserialize rest with
      | .ok (k, r1) => .ok (some (.get k, r1))
      | .error e => .error e
    else if t = 122 then .ok (some (.reset, rest))
    else .error ()

/-- The strings of the command are valid UTF-8 with byte length below
`2 ^ 32`, i.e. the command is the image of a well-typed Rust `Command`. -/
def validCommand : Command → Bool
  | .set k v => validUtf8 k && validUtf8 v && decide (k.length < 2 ^ 32)
      && decide (v.length < 2 ^ 32)
  | .get k => validUtf8 k && decide (k.length < 2 ^ 32)
  | .remove k => validUtf8 k && decide (k.length < 2 ^ 32)
  | .reset => true

theorem stringSerialize_length (s : List Byte) :
    (stringSerialize s).length = 4 + s.length := by
  simp [stringSerialize, u32Bytes]
  omega

theorem serialize_length_pos (c : Command) : 0 < (serialize c).length := by
  cases c <;> simp [serialize]

/-- A successful string read is stable under extending the stream. -/
theorem stringDeserialize_extend (bs ys s r : List Byte)
    (h : stringDeserialize bs = .ok (s, r)) :
    stringDeserialize (bs ++ ys) = .ok (s, r ++ ys) := by
  match bs with
  | [] => simp [stringDeserialize] at h
  | [b3] => simp [stringDeserialize] at h
  | [b3, b2] => simp [stringDeserialize] at h
  | [b3, b2, b1] => simp [stringDeserialize] at h
  | b3 :: b2 :: b1 :: b0 :: rest =>
    simp only [stringDeserialize] at h
    split_ifs at h with h1 h2
    · injection h with h3
      injection h3 with hs hr
      subst hs; subst hr
      simp only [List.cons_append, stringDeserialize]
      rw [List.take_append_of_le_length h1, List.drop_append_of_le_length h1]
      rw [if_pos (Nat.le_trans h1 (by simp)), if_pos h2]

/-- Length accounting and UTF-8 validity of a successful string read. -/
theorem stringDeserialize_spec (bs s r : List Byte)
    (h : stringDeserialize bs = .ok (s, r)) :
    bs.length = 4 + s.length + r.length ∧ s.length < 2 ^ 32 ∧ validUtf8 s = true := by
  match bs with
  | [] => simp [stringDeserialize] at h
  | [b3] => simp [stringDeserialize] at h
  | [b3, b2] => simp [stringDeserialize] at h
  | [b3, b2, b1] => simp [stringDeserialize] at h
  | b3 :: b2 :: b1 :: b0 :: rest =>
    simp only [stringDeserialize] at h
    split_ifs at h with h1 h2
    · injection h with h3
      injection h3 with hs hr
      subst hs; subst hr
      refine ⟨?_, ?_, h2⟩
      · simp [List.length_take, List.length_drop, Nat.min_eq_left h1]
        omega
      · have : u32OfBytes b3 b2 b1 b0 < 2 ^ 32 := by
          unfold u32OfBytes
          have := Nat.mod_lt b3 (show 0 < 256 by norm_num)
          omega
        simp [List.length_take]
        omega

/-- A successful record read is stable under extending the stream. -/
theorem deserialize_extend (bs ys : List Byte) (c : Command) (r : List Byte)
    (h : deserialize bs = .ok (some (c, r))) :
    deserialize (bs ++ ys) = .ok (some (c, r ++ ys)) := by
  match bs with
  | [] => simp [deserialize] at h
  | t :: rest =>
    simp only [deserialize] at h ⊢
    simp only [List.cons_append]
    split_ifs at h ⊢
    · rcases hk : stringDeserialize rest with e | ⟨k, r1⟩ <;> simp [hk] at h
      rcases hv : stringDeserialize r1 with e | ⟨v, r2⟩ <;> simp [hv] at h
      obtain ⟨hc, hr⟩ := h
      subst hc; subst hr
      simp [stringDeserialize_extend rest ys k r1 hk,
        stringDeserialize_extend r1 ys v r2 hv]
    · rcases hk : stringDeserialize rest with e | ⟨k, r1⟩ <;> simp [hk] at h
      obtain ⟨hc, hr⟩ := h
      subst hc; subst hr
      simp [stringDeserialize_extend rest ys k r1 hk]
    · rcases hk : stringDeserialize rest with e | ⟨k, r1⟩ <;> simp [hk] at h
      obtain ⟨hc, hr⟩ := h
      subst hc; subst hr
      simp [stringDeserialize_extend rest ys k r1 hk]
    · injection h with h3
      injection h3 with h4
      injection h4 with hc hr
      subst hc; subst hr
      rfl

/-- A record parsed from a stream consumes exactly the length of its own
re-serialization, and its strings are valid. -/
theorem deserialize_spec (bs : List Byte) (c : Command) (r : List Byte)
    (h : deserialize bs = .ok (some (c, r))) :
    bs.length = (serialize c).length + r.length ∧ validCommand c = true := by
  match bs with
  | [] => simp [deserialize] at h
  | t :: rest =>
    simp only [deserialize] at h
    split_ifs at h
    · rcases hk : stringDeserialize rest with e | ⟨k, r1⟩ <;> simp [hk] at h
      rcases hv : stringDeserialize r1 with e | ⟨v, r2⟩ <;> simp [hv] at h
      obtain ⟨hc, hr⟩ := h
      subst hc; subst hr
      obtain ⟨hl1, hs1, hv1⟩ := stringDeserialize_spec rest k r1 hk
      obtain ⟨hl2, hs2, hv2⟩ := stringDeserialize_spec r1 v r2 hv
      constructor
      · simp [serialize, stringSerialize_length]
        omega
      · have hs1a : k.length < 4294967296 := hs1
        have hs2a : v.length < 4294967296 := hs2
        simp [validCommand, hv1, hv2, hs1a, hs2a]
    · rcases hk : stringDeserialize rest with e | ⟨k, r1⟩ <;> simp [hk] at h
      obtain ⟨hc, hr⟩ := h
      subst hc; subst hr
      obtain ⟨hl1, hs1, hv1⟩ := stringDeserialize_spec rest k r1 hk
      constructor
      · simp [serialize, stringSerialize_length]
        omega
      · have hs1a : k.length < 4294967296 := hs1
        simp [validCommand, hv1, hs1a]
    · rcases hk : stringDeserialize rest with e | ⟨k, r1⟩ <;> simp [hk] at h
      obtain ⟨hc, hr⟩ := h
      subst hc; subst hr
      obtain ⟨hl1, hs1, hv1⟩ := stringDeserialize_spec rest k r1 hk
      constructor
      · simp [serialize, stringSerialize_length]
        omega
      · have hs1a : k.length < 4294967296 := hs1
        simp [validCommand, hv1, hs1a]
    · injection h with h3
      injection h3 with h4
      injection h4 with hc hr
      subst hc; subst hr
      constructor
      · simp [serialize]
        omega
      · rfl

theorem stringDeserialize_stringSerialize (s rest : List Byte)
    (hv : validUtf8 s = true) (hl : s.length < 2 ^ 32) :
    stringDeserialize (stringSerialize s ++ rest) = .ok (s, rest) := by
  unfold stringSerialize u32Bytes
  simp only [List.cons_append, List.nil_append, stringDeserialize]
  rw [show u32OfBytes (s.length / 2 ^ 24 % 256) (s.length / 2 ^ 16 % 256)
      (s.length / 2 ^ 8 % 256) (s.length % 256) = s.length from
    u32OfBytes_u32Bytes s.length hl]
  rw [List.take_append_of_le_length (Nat.le_refl _), List.take_length,
    List.drop_append_of_le_length (Nat.le_refl _), List.drop_length]
  simp [hv]

theorem deserialize_serialize (c : Command) (rest : List Byte)
    (hc : validCommand c = true) :
    deserialize (serialize c ++ rest) = .ok (some (c, rest)) := by
  cases c with
  | set k v =>
    simp only [validCommand, Bool.and_eq_true, decide_eq_true_eq] at hc
    obtain ⟨⟨⟨hk, hv⟩, hkl⟩, hvl⟩ := hc
    simp [serialize, deserialize, List.append_assoc,
      stringDeserialize_stringSerialize k _ hk hkl,
      stringDeserialize_stringSerialize v _ hv hvl]
  | get k =>
    simp only [validCommand, Bool.and_eq_true, decide_eq_true_eq] at hc
    obtain ⟨hk, hkl⟩ := hc
    simp [serialize, deserialize, stringDeserialize_stringSerialize k _ hk hkl]
  | remove k =>
    simp only [validCommand, Bool.and_eq_true, decide_eq_true_eq] at hc
    obtain ⟨hk, hkl⟩ := hc
    simp [serialize, deserialize, stringDeserialize_stringSerialize k _ hk hkl]
  | reset =>
    simp [serialize, deserialize]

theorem deserialize_cons_ne_none (t : Byte) (rest : List Byte) :
    deserialize (t :: rest) ≠ Except.ok none := by
  intro h
  simp only [deserialize] at h
  split_ifs at h <;>
    first
    | simp at h
    | (rcases hk : stringDeserialize rest with e | ⟨k, r1⟩ <;> simp [hk] at h
       rcases hv : stringDeserialize r1 with e | ⟨v, r2⟩ <;> simp [hv] at h)
    | (rcases hk : stringDeserialize rest with e | ⟨k, r1⟩ <;> simp [hk] at h)

theorem deserialize_eq_none_iff (bs : List Byte) :
    deserialize bs = .ok none ↔ bs = [] := by
  constructor
  · intro h
    cases bs with
    | nil => rfl
    | cons t rest => exact absurd h (deserialize_cons_ne_none t rest)
  · intro h
    subst h
    rfl

/-- C10.  Codec round-trip: for every `Command` whose key and value are
UTF-8 strings of byte length < 2^32, `deserialize` applied to the stream
produced by `serialize` returns `some` of the original command and
consumes exactly the serialized bytes, leaving any trailing bytes; and
`deserialize` returns `none` exactly at immediate end of stream. -/
theorem codec_roundtrip (c : Command) (rest : List Byte)
    (hc : validCommand c = true) :
    deserialize (serialize c ++ rest) = .ok (some (c, rest)) ∧
      ∀ bs : List Byte, deserialize bs = .ok none ↔ bs = [] :=
  ⟨deserialize_serialize c rest hc, deserialize_eq_none_iff⟩

/-- Witness for C10 at `Set { key: "k", value: "vv" }` with two trailing
bytes. -/
theorem codec_roundtrip_witness :
    validCommand (.set [107] [118, 118]) = true ∧
      (deserialize (serialize (.set [107] [118, 118]) ++ [9, 9]) =
          .ok (some (.set [107] [118, 118], [9, 9])) ∧
        ∀ bs : List Byte, deserialize bs = .ok none ↔ bs = []) :=
  ⟨by decide, codec_roundtrip (.set [107] [118, 118]) [9, 9] (by decide)⟩

/-! ## The storage engine state

`KvLogStorage` is modelled by the contents of the storage directory
(segment index ↦ optional file contents), the `active_file_idx` guarded by
the writer mutex, and the `DashMap` index.  The engine is driven
sequentially: one writer, readers between writes, no in-flight compaction
job (compaction is modelled as its own transition below). -/

/-- `KvStorePosition` from kv_log.rs. -/
structure KvStorePosition where
  file_idx : Nat
  file_offset : Nat
deriving DecidableEq, Repr

/-- The in-memory index (`DashMap<String, KvStorePosition>`), as a map
from UTF-8 key bytes to positions. -/
abbrev StoreIndex := List Byte → Option KvStorePosition

/-- The storage directory: segment index ↦ contents of `kv_<idx>.log`,
`none` when the file does not exist. -/
abbrev FileSys := Nat → Option (List Byte)

/-- The engine state. -/
structure KvState where
  files : FileSys
  active_file_idx : Nat
  index : StoreIndex

/-- Point update of the directory. -/
def updateFile (fs : FileSys) (i : Nat) (c : Option (List Byte)) : FileSys :=
  fun j => if j = i then c else fs j

/-- `DashMap::insert`. -/
def indexInsert (idx : StoreIndex) (k : List Byte) (p : KvStorePosition) : StoreIndex :=
  fun k' => if k' = k then some p else idx k'

/-- `DashMap::remove`. -/
def indexRemove (idx : StoreIndex) (k : List Byte) : StoreIndex :=
  fun k' => if k' = k then none else idx k'

/-- The state after `open` on an empty (or freshly created) directory:
no files, `active_file_idx = DEFAULT_FILE_IDX`, empty index. -/
def initState : KvState :=
  { files := fun _ => none, active_file_idx := DEFAULT_FILE_IDX, index := fun _ => none }

/-- The retry loop inside `KvLogStorage::write`: open the active file in
append+create mode (which creates it), read its length, and either rotate
to the next index (`rotate_file`; the compaction hand-off is asynchronous
and not part of this transition) or stop with the chosen segment and
write offset.  The loop is given as fuel-indexed recursion; from any
state reachable from `open`, the segment after the active one is absent,
so fuel 2 always suffices (see `writeLoop_two_ok`). -/
def writeLoop (fs : FileSys) (activeIdx : Nat) (len : Nat) : Nat → Option (FileSys × Nat)
  | 0 => none
  | fuel + 1 =>
    let content := (fs activeIdx).getD []
    let fs1 := updateFile fs activeIdx (some content)
    if content.length + len > MAX_SEGMENT_SIZE then
      writeLoop fs1 (activeIdx + 1) len fuel
    else
      some (fs1, activeIdx)

/-- `KvLogStorage::write`.  Returns the state after the call together
with the outcome: the value position for a `Set`, `none` for other
commands, or an error.  `appendOk = false` injects a failure of the
physical append/sync (I/O error or short write): the rotation side
effects before the failing append persist, the appended bytes and any
index update do not. -/
def kvWrite (appendOk : Bool) (st : KvState) (cmd : Command) :
    KvState × Except Unit (Option KvStorePosition) :=
  let bytes := serialize cmd
  if bytes.length > MAX_SEGMENT_SIZE then (st, .error ())
  else
    match writeLoop st.files st.active_file_idx bytes.length 2 with
    | none => (st, .error ())
    | some (fs1, a) =>
      let content := (fs1 a).getD []
      if appendOk then
        ({ st with files := updateFile fs1 a (some (content ++ bytes)), active_file_idx := a },
          .ok ((getValueOffset cmd).map fun vo => ⟨a, content.length + vo⟩))
      else
        ({ st with files := fs1, active_file_idx := a }, .error ())

/-- `KvLogStorage::set`: write the record, then insert the returned value
position into the index (the `unwrap` of the position is total for `Set`). -/
def kvSet (appendOk : Bool) (st : KvState) (k v : List Byte) : KvState × Except Unit Unit :=
  match kvWrite appendOk st (.set k v) with
  | (st', .ok (some pos)) => ({ st' with index := indexInsert st'.index k pos }, .ok ())
  | (st', .ok none) => (st', .error ())
  | (st', .error e) => (st', .error e)

/-- `KvLogStorage::remove`: `self.index.remove(&key)` first; only when an
entry existed is the tombstone record written.  Note the index entry is
deleted before the append. -/
def kvRemove (appendOk : Bool) (st : KvState) (k : List Byte) : KvState × Except Unit Bool :=
  match st.index k with
  | some _ =>
    let st1 : KvState := { st with index := indexRemove st.index k }
    match kvWrite appendOk st1 (.remove k) with
    | (st2, .ok _) => (st2, .ok true)
    | (st2, .error e) => (st2, .error e)
  | none => (st, .ok false)

/-- `KvLogStorage::read_value`: open the segment named by the position,
seek to the value offset, and decode one length-prefixed string. -/
def readValue (st : KvState) (pos : KvStorePosition) : Except Unit (List Byte) :=
  match st.files pos.file_idx with
  | none => .error ()
  | some content =>
    match stringDeserialize (content.drop pos.file_offset) with
    | .ok (v, _) => .ok v
    | .error e => .error e

/-- `KvLogStorage::get`: index lookup, then `read_value`; a missing key
is `Ok(None)`, not an error. -/
def kvGet (st : KvState) (k : List Byte) : Except Unit (Option (List Byte)) :=
  match st.index k with
  | some pos =>
    match readValue st pos with
    | .ok v => .ok (some v)
    | .error e => .error e
  | none => .ok none

/-- `KvLogStorage::reset`: delete `kv_1.log ..= kv_active.log` (a missing
file is only a warning), reset `active_file_idx` to `DEFAULT_FILE_IDX`,
clear the index. -/
def resetFiles (st : KvState) : FileSys :=
  fun i => if 1 ≤ i ∧ i ≤ st.active_file_idx then none else st.files i

/-- The state after a successful `reset`. -/
def resetState (st : KvState) : KvState :=
  { files := resetFiles st
    active_file_idx := DEFAULT_FILE_IDX
    index := fun _ => none }

def kvReset (st : KvState) : KvState × Except Unit Unit :=
  (resetState st, .ok ())

/-- A mutating storage operation (reads are side-effect free and are
queried on the resulting states directly). -/
inductive KvOp : Type where
  | set (k v : List Byte)
  | remove (k : List Byte)
  | reset
deriving DecidableEq, Repr

/-- One operation of a sequential history, with all appends succeeding. -/
def runOp (st : KvState) : KvOp → KvState × Except Unit Unit
  | .set k v => kvSet true st k v
  | .remove k =>
    match kvRemove true st k with
    | (st', .ok _) => (st', .ok ())
    | (st', .error e) => (st', .error e)
  | .reset => kvReset st

/-- A sequence of operations, each of which must return successfully. -/
def runOps (st : KvState) : List KvOp → Except Unit KvState
  | [] => .ok st
  | op :: ops =>
    match runOp st op with
    | (st', .ok _) => runOps st' ops
    | (_, .error e) => .error e

/-- A history started on a freshly opened empty directory. -/
def runStorage (ops : List KvOp) : Except Unit KvState := runOps initState ops

/-- The operation arguments are Rust `String`s (valid UTF-8). -/
def validOp : KvOp → Bool
  | .set k v => validUtf8 k && validUtf8 v
  | .remove k => validUtf8 k
  | .reset => true

def validOps (ops : List KvOp) : Bool := ops.all validOp

/-- The logical (specification-level) contents after a history: the last
`set` per key wins, `remove` and `reset` erase. -/
def logApply (m : List Byte → Option (List Byte)) : KvOp → (List Byte → Option (List Byte))
  | .set k v => fun k' => if k' = k then some v else m k'
  | .remove k => fun k' => if k' = k then none else m k'
  | .reset => fun _ => none

def logRun (ops : List KvOp) : List Byte → Option (List Byte) :=
  ops.foldl logApply (fun _ => none)

/-! ## Index restoration (`restore_index`)

`restore_index` reads each scanned segment in ascending index order with a
buffered reader: it records the stream position, deserializes one command,
and applies its effect to the index (`Set` inserts position + value
offset, `Remove` deletes, other commands are skipped by the `_ => {}`
arm). -/

/-- The effect of one replayed record on the index, at the given record
start offset (`file_offset += value_offset_opt.unwrap_or(0)` for `Set`). -/
def applyCmdToIndex (fidx offset : Nat) (idx : StoreIndex) (cmd : Command) : StoreIndex :=
  match cmd with
  | .set k v => indexInsert idx k ⟨fidx, offset + (getValueOffset (.set k v)).getD 0⟩
  | .remove k => indexRemove idx k
  | _ => idx

/-- The per-file replay loop.  Fuel-indexed: each record consumes at least
its tag byte, so fuel `length + 1` always suffices. -/
def replayGo (fidx : Nat) (idx : StoreIndex) (offset : Nat) (bs : List Byte) :
    Nat → Except Unit StoreIndex
  | 0 => .error ()
  | fuel + 1 =>
    match deserialize bs with
    | .error _ => .error ()
    | .ok none => .ok idx
    | .ok (some (cmd, rest)) =>
      replayGo fidx (applyCmdToIndex fidx offset idx cmd) (offset + (bs.length - rest.length))
        rest fuel

/-- Replay one segment file into the index. -/
def replayFile (idx : StoreIndex) (fidx : Nat) (content : List Byte) :
    Except Unit StoreIndex :=
  replayGo fidx idx 0 content (content.length + 1)

/-- Replay the listed segments (ascending indices) in order; a scanned
segment whose file cannot be opened fails the restore. -/
def restoreGo (fs : FileSys) (idx : StoreIndex) : List Nat → Except Unit StoreIndex
  | [] => .ok idx
  | i :: is =>
    match fs i with
    | none => .error ()
    | some c =>
      match replayFile idx i c with
      | .ok idx' => restoreGo fs idx' is
      | .error e => .error e

/-- The sorted list of segment indices present in the directory.  The
directory scan of `open` enumerates the `.log` files and sorts their
indices; for a state reachable from `open` every present segment index is
at most `active_file_idx` (and index 0 is never created), so the sorted
scan is exactly the ascending filter below. -/
def scanIdxs (st : KvState) : List Nat :=
  (List.range (st.active_file_idx + 1)).filter (fun i => (st.files i).isSome)

/-- `KvLogStorage::open` on the directory left behind by `st`: scan,
take the largest index as active (default `DEFAULT_FILE_IDX`), and
restore the index by replay. -/
def openModel (st : KvState) : Except Unit KvState :=
  let idxs := scanIdxs st
  let active := idxs.getLast?.getD DEFAULT_FILE_IDX
  match restoreGo st.files (fun _ => none) idxs with
  | .ok ridx => .ok { files := st.files, active_file_idx := active, index := ridx }
  | .error e => .error e

/-! ## Compaction (`compact_log_file`)

The compactor scans one sealed segment, keeping the last `Set` per key
not later removed within the segment (`file_key_values`, a `HashMap`
modelled as an in-place-update association list) and the keys whose last
record in the segment is a `Remove` (`keys_to_remove`, a `HashSet`
modelled as a duplicate-free list).  `commands_count` counts only `Set`
and `Remove` records. -/

/-- `HashMap::insert`: replace in place, or append a fresh binding. -/
def alInsert (l : List (List Byte × List Byte)) (k v : List Byte) :
    List (List Byte × List Byte) :=
  match l with
  | [] => [(k, v)]
  | (k', v') :: t => if k' = k then (k, v) :: t else (k', v') :: alInsert t k v

/-- `HashMap::remove` / key deletion. -/
def alErase (l : List (List Byte × List Byte)) (k : List Byte) :
    List (List Byte × List Byte) :=
  l.filter (fun p => p.1 ≠ k)

/-- `HashSet::insert`. -/
def setInsert (l : List (List Byte)) (k : List Byte) : List (List Byte) :=
  if k ∈ l then l else l ++ [k]

/-- `HashSet::remove`. -/
def setErase (l : List (List Byte)) (k : List Byte) : List (List Byte) :=
  l.filter (fun k' => k' ≠ k)

/-- One record of the compaction scan. -/
def scanStep (acc : List (List Byte × List Byte) × List (List Byte) × Nat) (cmd : Command) :
    List (List Byte × List Byte) × List (List Byte) × Nat :=
  match cmd with
  | .set k v => (alInsert acc.1 k v, setErase acc.2.1 k, acc.2.2 + 1)
  | .remove k => (alErase acc.1 k, setInsert acc.2.1 k, acc.2.2 + 1)
  | _ => acc

/-- The compaction scan over the parsed records of a segment. -/
def scanRecords (cmds : List Command) :
    List (List Byte × List Byte) × List (List Byte) × Nat :=
  cmds.foldl scanStep ([], [], 0)

/-- Parse all records of a segment (the scan loop of `compact_log_file`). -/
def parseGo (bs : List Byte) : Nat → Except Unit (List Command)
  | 0 => .error ()
  | fuel + 1 =>
    match deserialize bs with
    | .error _ => .error ()
    | .ok none => .ok []
    | .ok (some (cmd, rest)) =>
      match parseGo rest fuel with
      | .ok cmds => .ok (cmd :: cmds)
      | .error e => .error e

def parseRecords (bs : List Byte) : Except Unit (List Command) :=
  parseGo bs (bs.length + 1)

/-- The rewritten segment: all live `Set`s first, then the tombstones. -/
def compactedContent (alive : List (List Byte × List Byte)) (tombs : List (List Byte)) :
    List Byte :=
  (alive.map fun p => serialize (.set p.1 p.2)).flatten ++
    (tombs.map fun k => serialize (.remove k)).flatten

/-- The rebuilt per-file index (`file_index`): positions of the live
values inside the rewritten segment. -/
def buildFileIndex (fidx : Nat) (offset : Nat) :
    List (List Byte × List Byte) → List (List Byte × KvStorePosition)
  | [] => []
  | (k, v) :: t =>
    (k, ⟨fidx, offset + (getValueOffset (.set k v)).getD 0⟩) ::
      buildFileIndex fidx (offset + (serialize (.set k v)).length) t

/-- The conditional index patch after the rename: replace a key's position
only if the index still points into the compacted segment. -/
def patchIndex (fidx : Nat) (idx : StoreIndex) :
    List (List Byte × KvStorePosition) → StoreIndex
  | [] => idx
  | (k, pos) :: t =>
    match idx k with
    | some existing =>
      if existing.file_idx = fidx then patchIndex fidx (indexInsert idx k pos) t
      else patchIndex fidx idx t
    | none => patchIndex fidx idx t

/-- `KvLogStorage::compact_log_file` on segment `fidx`, run to completion
with no interleaved writer (the temp file is created, filled, fsynced and
renamed over the segment; the temp path bookkeeping has no observable
effect in this directory model). -/
def compactLogFile (st : KvState) (fidx : Nat) : Except Unit KvState :=
  match st.files fidx with
  | none => .error ()
  | some content =>
    match parseRecords content with
    | .error e => .error e
    | .ok cmds =>
      let scan := scanRecords cmds
      let alive := scan.1
      let tombs := scan.2.1
      let count := scan.2.2
      if count = alive.length + tombs.length then .ok st
      else if alive = [] ∧ tombs = [] then
        .ok { st with files := updateFile st.files fidx none }
      else
        let newContent := compactedContent alive tombs
        let fileIndex := buildFileIndex fidx 0 alive
        .ok { st with
          files := updateFile st.files fidx (some newContent),
          index := patchIndex fidx st.index fileIndex }

/-- The final per-key effect of replaying one segment in isolation:
`some (some v)` when the last record for the key is `Set k v`,
`some none` when it is `Remove k`, `none` for untouched keys. -/
def segEffectStep (m : List Byte → Option (Option (List Byte))) :
    Command → (List Byte → Option (Option (List Byte)))
  | .set k v => fun k' => if k' = k then some (some v) else m k'
  | .remove k => fun k' => if k' = k then some none else m k'
  | _ => m

def segEffect (cmds : List Command) : List Byte → Option (Option (List Byte)) :=
  cmds.foldl segEffectStep (fun _ => none)

/-- `alLookup`: association-list lookup keyed on the first component. -/
def alLookup (l : List (List Byte × List Byte)) (k : List Byte) : Option (List Byte) :=
  match l with
  | [] => none
  | (k', v) :: t => if k' = k then some v else alLookup t k

/-! ## Replay lemmas -/

theorem deserialize_consumed_lt (bs : List Byte) (c : Command) (r : List Byte)
    (h : deserialize bs = .ok (some (c, r))) : r.length < bs.length := by
  have hs := (deserialize_spec bs c r h).1
  have hp := serialize_length_pos c
  omega

theorem replayGo_fuel_eq (fidx : Nat) :
    ∀ fuel bs idx off fuel', bs.length < fuel → bs.length < fuel' →
      replayGo fidx idx off bs fuel = replayGo fidx idx off bs fuel' := by
  intro fuel
  induction fuel with
  | zero => intro bs idx off fuel' h _; omega
  | succ fuel ih =>
    intro bs idx off fuel' h h'
    match fuel', h' with
    | fuel' + 1, _ =>
      simp only [replayGo]
      match hd : deserialize bs with
      | .error e => rfl
      | .ok none => rfl
      | .ok (some (cmd, rest)) =>
        have hlt := deserialize_consumed_lt bs cmd rest hd
        exact ih rest _ _ fuel' (by omega) (by omega)

theorem replayGo_extend_record (fidx : Nat) (cmd : Command) (hc : validCommand cmd = true) :
    ∀ n bs idx off idx₁, bs.length ≤ n →
      replayGo fidx idx off bs (bs.length + 1) = .ok idx₁ →
      replayGo fidx idx off (bs ++ serialize cmd) ((bs ++ serialize cmd).length + 1) =
        .ok (applyCmdToIndex fidx (off + bs.length) idx₁ cmd) := by
  intro n
  induction n with
  | zero =>
    intro bs idx off idx₁ hlen h
    have hbs : bs = [] := List.length_eq_zero.mp (Nat.le_zero.mp hlen)
    subst hbs
    simp only [replayGo, deserialize] at h
    injection h with h1
    subst h1
    have hser : deserialize (serialize cmd) = .ok (some (cmd, [])) := by
      have := deserialize_serialize cmd [] hc
      simpa using this
    simp only [List.nil_append, replayGo, hser]
    have hpos := serialize_length_pos cmd
    match hf : (serialize cmd).length, hpos with
    | flen + 1, _ =>
      simp only [replayGo, deserialize]
      simp
  | succ n ih =>
    intro bs idx off idx₁ hlen h
    match hd : deserialize bs with
    | .error e =>
      simp only [replayGo, hd] at h
      exact absurd h (by simp)
    | .ok none =>
      have hbs : bs = [] := (deserialize_eq_none_iff bs).mp hd
      subst hbs
      exact ih [] idx off idx₁ (Nat.zero_le n) h
    | .ok (some (c, rest)) =>
      have hlt := deserialize_consumed_lt bs c rest hd
      simp only [replayGo, hd] at h
      have hcan : replayGo fidx (applyCmdToIndex fidx off idx c)
          (off + (bs.length - rest.length)) rest (rest.length + 1) = .ok idx₁ := by
        rw [replayGo_fuel_eq fidx (rest.length + 1) rest _ _ bs.length
          (Nat.lt_succ_self _) hlt]
        exact h
      have hih := ih rest (applyCmdToIndex fidx off idx c) (off + (bs.length - rest.length))
        idx₁ (by omega) hcan
      have hext := deserialize_extend bs (serialize cmd) c rest hd
      simp only [replayGo, hext]
      have hlen1 : (bs ++ serialize cmd).length - (rest ++ serialize cmd).length =
          bs.length - rest.length := by
        simp
        omega
      rw [hlen1]
      have hfuel : replayGo fidx (applyCmdToIndex fidx off idx c)
          (off + (bs.length - rest.length)) (rest ++ serialize cmd)
          ((bs ++ serialize cmd).length + 1 - 1) =
          replayGo fidx (applyCmdToIndex fidx off idx c)
          (off + (bs.length - rest.length)) (rest ++ serialize cmd)
          ((rest ++ serialize cmd).length + 1) := by
        apply replayGo_fuel_eq <;> (simp; try omega)
      rw [show (bs ++ serialize cmd).length + 1 - 1 = (bs ++ serialize cmd).length by omega]
        at hfuel
      rw [hfuel, hih]
      have hoff : off + (bs.length - rest.length) + rest.length = off + bs.length := by
        omega
      rw [hoff]

theorem replayFile_extend_record (idx : StoreIndex) (fidx : Nat) (c : List Byte)
    (cmd : Command) (idx₁ : StoreIndex) (hc : validCommand cmd = true)
    (h : replayFile idx fidx c = .ok idx₁) :
    replayFile idx fidx (c ++ serialize cmd) =
      .ok (applyCmdToIndex fidx c.length idx₁ cmd) := by
  have := replayGo_extend_record fidx cmd hc c.length c idx 0 idx₁ (Nat.le_refl _) h
  simpa [replayFile] using this

theorem restoreGo_append (fs : FileSys) (idx : StoreIndex) (l₁ l₂ : List Nat) :
    restoreGo fs idx (l₁ ++ l₂) =
      match restoreGo fs idx l₁ with
      | .ok idx' => restoreGo fs idx' l₂
      | .error e => .error e := by
  induction l₁ generalizing idx with
  | nil => simp [restoreGo]
  | cons i is ih =>
    cases hfs : fs i with
    | none => simp [restoreGo, hfs]
    | some c =>
      simp only [List.cons_append, restoreGo, hfs]
      cases hrf : replayFile idx i c with
      | ok idx' => simp only [hrf]; exact ih idx'
      | error e => simp only [hrf]

theorem restoreGo_congr (fs fs' : FileSys) (idx : StoreIndex) (l : List Nat)
    (h : ∀ i ∈ l, fs i = fs' i) :
    restoreGo fs idx l = restoreGo fs' idx l := by
  induction l generalizing idx with
  | nil => rfl
  | cons i is ih =>
    have hfi := h i (by simp)
    cases hfs : fs' i with
    | none => simp [restoreGo, hfs, hfi.trans hfs]
    | some c =>
      simp only [restoreGo, hfs, hfi.trans hfs]
      cases hrf : replayFile idx i c with
      | ok idx' => simp only [hrf]; exact ih idx' fun j hj => h j (by simp [hj])
      | error e => simp only [hrf]

/-! ## The write path -/

/-- Characterization of a successful `write` call: the record is appended
to the end of segment `a`, which is either the active segment (when the
record fits) or the next one (after one rotation, the fresh segment being
empty because no segment beyond the active one exists); no other file
changes, the index does not change, and the returned position points at
the value inside segment `a`. -/
theorem kvWrite_spec (st : KvState) (cmd : Command)
    (hhigh : ∀ i, st.active_file_idx < i → st.files i = none)
    (hsz : (serialize cmd).length ≤ MAX_SEGMENT_SIZE) :
    ∃ st' r a old,
      kvWrite true st cmd = (st', .ok r) ∧
      (∀ vo, getValueOffset cmd = some vo → r = some ⟨a, old.length + vo⟩) ∧
      (getValueOffset cmd = none → r = none) ∧
      st'.active_file_idx = a ∧ st'.index = st.index ∧
      st'.files a = some (old ++ serialize cmd) ∧
      (∀ j, j ≠ a → st'.files j = st.files j) ∧
      old.length + (serialize cmd).length ≤ MAX_SEGMENT_SIZE ∧
      ((a = st.active_file_idx ∧ old = (st.files st.active_file_idx).getD []) ∨
       (a = st.active_file_idx + 1 ∧ old = [] ∧
          ((st.files st.active_file_idx).getD []).length + (serialize cmd).length >
            MAX_SEGMENT_SIZE)) := by
  by_cases hrot : ((st.files st.active_file_idx).getD []).length + (serialize cmd).length >
      MAX_SEGMENT_SIZE
  · -- rotation: the active file is full, the record goes to the next segment
    have hc0ne : st.files st.active_file_idx =
        some ((st.files st.active_file_idx).getD []) := by
      rcases hf : st.files st.active_file_idx with _ | c
      · exfalso
        rw [hf] at hrot
        simp at hrot
        omega
      · rfl
    have hnone : st.files (st.active_file_idx + 1) = none :=
      hhigh (st.active_file_idx + 1) (by omega)
    have hloop : writeLoop st.files st.active_file_idx (serialize cmd).length 2 =
        some (updateFile (updateFile st.files st.active_file_idx
            (some ((st.files st.active_file_idx).getD [])))
          (st.active_file_idx + 1) (some []), st.active_file_idx + 1) := by
      simp only [writeLoop, if_pos hrot]
      have h1 : (updateFile st.files st.active_file_idx
          (some ((st.files st.active_file_idx).getD []))
          (st.active_file_idx + 1)).getD [] = [] := by
        simp [updateFile, hnone]
      simp only [writeLoop, h1]
      rw [if_neg (by simp; omega)]
    obtain ⟨st', r, hW⟩ : ∃ st' r, kvWrite true st cmd = (st', .ok r) ∧
        st' = { st with
          files := updateFile (updateFile (updateFile st.files st.active_file_idx
              (some ((st.files st.active_file_idx).getD [])))
            (st.active_file_idx + 1) (some []))
            (st.active_file_idx + 1) (some (serialize cmd)),
          active_file_idx := st.active_file_idx + 1 } ∧
        r = (getValueOffset cmd).map fun vo => ⟨st.active_file_idx + 1, vo⟩ := by
      refine ⟨_, _, ?_, rfl, rfl⟩
      unfold kvWrite
      rw [if_neg (by omega)]
      simp only [hloop, updateFile]
      simp
    obtain ⟨hW, hst', hr⟩ := hW
    refine ⟨st', r, st.active_file_idx + 1, [], hW, ?_, ?_, ?_, ?_, ?_, ?_, ?_,
      Or.inr ⟨rfl, rfl, hrot⟩⟩
    · intro vo hvo
      rw [hr, hvo]
      simp
    · intro hvo
      rw [hr, hvo]
      rfl
    · rw [hst']
    · rw [hst']
    · rw [hst']
      simp [updateFile]
    · intro j hj
      rw [hst']
      simp only [updateFile, if_neg hj]
      rcases eq_or_ne j st.active_file_idx with hja | hja
      · subst hja
        rw [if_pos rfl]
        exact hc0ne.symm
      · rw [if_neg hja]
    · simp
      omega
  · -- no rotation: the record fits in the active segment
    have hloop : writeLoop st.files st.active_file_idx (serialize cmd).length 2 =
        some (updateFile st.files st.active_file_idx
          (some ((st.files st.active_file_idx).getD [])), st.active_file_idx) := by
      simp only [writeLoop]
      rw [if_neg hrot]
    obtain ⟨st', r, hW⟩ : ∃ st' r, kvWrite true st cmd = (st', .ok r) ∧
        st' = { st with
          files := updateFile (updateFile st.files st.active_file_idx
              (some ((st.files st.active_file_idx).getD [])))
            st.active_file_idx
            (some ((st.files st.active_file_idx).getD [] ++ serialize cmd)),
          active_file_idx := st.active_file_idx } ∧
        r = (getValueOffset cmd).map fun vo =>
          ⟨st.active_file_idx, ((st.files st.active_file_idx).getD []).length + vo⟩ := by
      refine ⟨_, _, ?_, rfl, rfl⟩
      unfold kvWrite
      rw [if_neg (by omega)]
      simp only [hloop, updateFile]
      simp
    obtain ⟨hW, hst', hr⟩ := hW
    refine ⟨st', r, st.active_file_idx, (st.files st.active_file_idx).getD [], hW,
      ?_, ?_, ?_, ?_, ?_, ?_, by omega, Or.inl ⟨rfl, rfl⟩⟩
    · intro vo hvo
      rw [hr, hvo]
      rfl
    · intro hvo
      rw [hr, hvo]
      rfl
    · rw [hst']
    · rw [hst']
    · rw [hst']
      simp [updateFile]
    · intro j hj
      rw [hst']
      simp [updateFile, if_neg hj]

/-! ## The reachability invariant -/

/-- Everything that holds of a state reachable from `open` on an empty
directory via successful `set`/`remove`/`reset` calls, tied to the
logical key-value map `m` of the history. -/
structure Reach (st : KvState) (m : List Byte → Option (List Byte)) : Prop where
  active_pos : 1 ≤ st.active_file_idx
  zero_none : st.files 0 = none
  high_none : ∀ i, st.active_file_idx < i → st.files i = none
  size_cap : ∀ i c, st.files i = some c → c.length ≤ MAX_SEGMENT_SIZE
  active_file : (st.files st.active_file_idx).isSome = true ∨
    (st.active_file_idx = 1 ∧ ∀ i, st.files i = none)
  coherent : ∀ k,
    match m k with
    | none => st.index k = none
    | some v => ∃ pos content rest, st.index k = some pos ∧
        st.files pos.file_idx = some content ∧
        stringDeserialize (content.drop pos.file_offset) = .ok (v, rest)
  replayed : ∃ ridx, restoreGo st.files (fun _ => none) (scanIdxs st) = .ok ridx ∧
    ∀ k, ridx k = st.index k
  key_bound : ∀ k v, m k = some v → k.length + 9 ≤ MAX_SEGMENT_SIZE

theorem reach_init : Reach initState (fun _ => none) := by
  refine ⟨Nat.le_refl _, rfl, fun _ _ => rfl, ?_, Or.inr ⟨rfl, fun _ => rfl⟩, ?_, ?_,
    fun k v h => Option.noConfusion h⟩
  · intro i c h
    simp [initState] at h
  · intro k
    rfl
  · refine ⟨fun _ => none, ?_, fun _ => rfl⟩
    have : scanIdxs initState = [] := by
      simp [scanIdxs, initState]
    rw [this]
    rfl

theorem scanIdxs_split (st : KvState) (h : (st.files st.active_file_idx).isSome = true) :
    scanIdxs st =
      (List.range st.active_file_idx).filter (fun i => (st.files i).isSome) ++
        [st.active_file_idx] := by
  unfold scanIdxs
  rw [List.range_succ, List.filter_append]
  simp [h]

/-- Appending one record at the end of segment `a` (the new active
segment) extends the replayed index by exactly the record's effect. -/
theorem restore_after_append (st st' : KvState) (cmd : Command) (a : Nat)
    (old : List Byte) (ridx : StoreIndex)
    (hzero : st.files 0 = none)
    (hactf : (st.files st.active_file_idx).isSome = true ∨
      (st.active_file_idx = 1 ∧ ∀ i, st.files i = none))
    (hrep : restoreGo st.files (fun _ => none) (scanIdxs st) = .ok ridx)
    (hc : validCommand cmd = true)
    (hact' : st'.active_file_idx = a)
    (hfa : st'.files a = some (old ++ serialize cmd))
    (hoth : ∀ j, j ≠ a → st'.files j = st.files j)
    (hcase : (a = st.active_file_idx ∧ old = (st.files st.active_file_idx).getD []) ∨
      (a = st.active_file_idx + 1 ∧ old = [])) :
    restoreGo st'.files (fun _ => none) (scanIdxs st') =
      .ok (applyCmdToIndex a old.length ridx cmd) := by
  have hsplit' : scanIdxs st' =
      (List.range a).filter (fun i => (st'.files i).isSome) ++ [a] := by
    have := scanIdxs_split st' (by rw [hact', hfa]; rfl)
    rw [hact'] at this
    exact this
  rcases hcase with ⟨haa, hold⟩ | ⟨haa, hold⟩
  · -- same active segment
    rcases hactf with hsome | ⟨hone, hnonef⟩
    · -- the active file already existed: its replay is extended by one record
      have hsplit : scanIdxs st =
          (List.range st.active_file_idx).filter (fun i => (st.files i).isSome) ++
            [st.active_file_idx] := scanIdxs_split st hsome
      rcases ho : st.files st.active_file_idx with _ | c0
      · rw [ho] at hsome; simp at hsome
      · have holdc : old = c0 := by rw [hold, ho]; rfl
        rw [hsplit] at hrep
        rw [restoreGo_append] at hrep
        rcases hmid : restoreGo st.files (fun _ => none)
            ((List.range st.active_file_idx).filter fun i => (st.files i).isSome) with
          e | mid
        · rw [hmid] at hrep; simp at hrep
        · rw [hmid] at hrep
          simp only [restoreGo, ho] at hrep
          rcases hrf : replayFile mid st.active_file_idx c0 with e | ridx0
          · rw [hrf] at hrep; simp at hrep
          · rw [hrf] at hrep
            simp only [restoreGo] at hrep
            injection hrep with hrep
            subst hrep
            -- now rebuild on the new file system
            have hfilter : (List.range a).filter (fun i => (st'.files i).isSome) =
                (List.range st.active_file_idx).filter (fun i => (st.files i).isSome) := by
              rw [haa]
              apply List.filter_congr
              intro j hj
              rw [hoth j (by rw [haa]; exact Nat.ne_of_lt (List.mem_range.mp hj))]
            rw [hsplit', hfilter, restoreGo_append]
            have hcongr : restoreGo st'.files (fun _ => none)
                ((List.range st.active_file_idx).filter fun i => (st.files i).isSome) =
                restoreGo st.files (fun _ => none)
                ((List.range st.active_file_idx).filter fun i => (st.files i).isSome) := by
              apply restoreGo_congr
              intro j hj
              have hjr := List.mem_range.mp (List.mem_of_mem_filter hj)
              exact hoth j (by rw [haa]; exact Nat.ne_of_lt hjr)
            rw [hcongr, hmid]
            simp only [restoreGo, hfa]
            rw [holdc] at hfa ⊢
            rw [replayFile_extend_record mid a c0 cmd ridx0 hc
              (by rw [← haa] at hrf; exact hrf)]
    · -- no file at all yet: the scan was empty, the new scan is exactly [a]
      have hempty : scanIdxs st = [] := by
        unfold scanIdxs
        rw [List.filter_eq_nil_iff]
        intro i _
        simp [hnonef i]
      rw [hempty] at hrep
      simp only [restoreGo] at hrep
      injection hrep with hrep
      subst hrep
      have holdnil : old = [] := by rw [hold, hnonef]; rfl
      have hfilter : (List.range a).filter (fun i => (st'.files i).isSome) = [] := by
        rw [List.filter_eq_nil_iff]
        intro j hj
        rw [hoth j (Nat.ne_of_lt (List.mem_range.mp hj))]
        rcases Nat.eq_zero_or_pos j with hj0 | hjpos
        · subst hj0; simp [hzero]
        · simp [hnonef j]
      rw [hsplit', hfilter]
      simp only [List.nil_append, restoreGo, hfa]
      rw [holdnil] at hfa ⊢
      rw [replayFile_extend_record (fun _ => none) a [] cmd (fun _ => none) hc rfl]
  · -- rotation happened: the new segment is appended to the scan
    rcases hactf with hsome | ⟨_, hnonef⟩
    · have hsplit : scanIdxs st =
          (List.range st.active_file_idx).filter (fun i => (st.files i).isSome) ++
            [st.active_file_idx] := scanIdxs_split st hsome
      have hfilter : (List.range a).filter (fun i => (st'.files i).isSome) =
          scanIdxs st := by
        rw [haa]
        unfold scanIdxs
        apply List.filter_congr
        intro j hj
        rw [hoth j (by have := List.mem_range.mp hj; omega)]
      rw [hsplit', hfilter, restoreGo_append]
      have hcongr : restoreGo st'.files (fun _ => none) (scanIdxs st) =
          restoreGo st.files (fun _ => none) (scanIdxs st) := by
        apply restoreGo_congr
        intro j hj
        have hjr : j < st.active_file_idx + 1 := by
          have := List.mem_range.mp (List.mem_of_mem_filter hj)
          exact this
        exact hoth j (by omega)
      rw [hcongr, hrep]
      simp only [restoreGo, hfa]
      rw [hold] at hfa ⊢
      rw [replayFile_extend_record ridx a [] cmd ridx hc rfl]
    · -- all files absent contradicts the rotation condition only through
      -- the caller; handle it directly: the scan was empty
      have hempty : scanIdxs st = [] := by
        unfold scanIdxs
        rw [List.filter_eq_nil_iff]
        intro i _
        simp [hnonef i]
      rw [hempty] at hrep
      simp only [restoreGo] at hrep
      injection hrep with hrep
      subst hrep
      have hfilter : (List.range a).filter (fun i => (st'.files i).isSome) = [] := by
        rw [List.filter_eq_nil_iff]
        intro j hj
        rw [hoth j (Nat.ne_of_lt (List.mem_range.mp hj))]
        simp [hnonef j]
      rw [hsplit', hfilter]
      simp only [List.nil_append, restoreGo, hfa]
      rw [hold] at hfa ⊢
      rw [replayFile_extend_record (fun _ => none) a [] cmd (fun _ => none) hc rfl]

theorem drop_length_add {α : Type} (l₁ l₂ : List α) (n : Nat) :
    (l₁ ++ l₂).drop (l₁.length + n) = l₂.drop n := by
  induction l₁ with
  | nil => simp
  | cons x xs ih => simp [Nat.succ_add, ih]

theorem stringDeserialize_off_le (c : List Byte) (off : Nat)
    (p : List Byte × List Byte) (h : stringDeserialize (c.drop off) = .ok p) :
    off ≤ c.length := by
  by_contra hgt
  rw [List.drop_eq_nil_of_le (by omega)] at h
  simp [stringDeserialize] at h

/-- Preservation of `Reach` by a successful `set`. -/
theorem reach_set (st : KvState) (m : List Byte → Option (List Byte)) (k v : List Byte)
    (st' : KvState) (hR : Reach st m) (hk : validUtf8 k = true) (hv : validUtf8 v = true)
    (hrun : kvSet true st k v = (st', .ok ())) :
    Reach st' (logApply m (.set k v)) := by
  by_cases hsz : (serialize (.set k v)).length ≤ MAX_SEGMENT_SIZE
  case neg =>
    exfalso
    have hW : kvWrite true st (.set k v) = (st, .error ()) := by
      unfold kvWrite
      rw [if_pos (by omega)]
    unfold kvSet at hrun
    rw [hW] at hrun
    simp at hrun
  case pos =>
    have hvc : validCommand (.set k v) = true := by
      have hlen : (serialize (.set k v)).length = 9 + k.length + v.length := by
        simp [serialize, stringSerialize_length]
        omega
      have hkb : k.length < 4294967296 := by
        rw [hlen] at hsz; unfold MAX_SEGMENT_SIZE at hsz; omega
      have hvb : v.length < 4294967296 := by
        rw [hlen] at hsz; unfold MAX_SEGMENT_SIZE at hsz; omega
      simp [validCommand, hk, hv, hkb, hvb]
    obtain ⟨st₁, r, a, old, hW, hrsome, _hrnone, hact, hidx, hfa, hoth, hfit, hcase⟩ :=
      kvWrite_spec st (.set k v) hR.high_none hsz
    have hr : r = some ⟨a, old.length + (1 + 4 + k.length)⟩ := hrsome _ rfl
    subst hr
    unfold kvSet at hrun
    rw [hW] at hrun
    simp only at hrun
    have hst' : st' = { st₁ with
        index := indexInsert st₁.index k ⟨a, old.length + (1 + 4 + k.length)⟩ } := by
      have := congrArg Prod.fst hrun
      simpa using this.symm
    have hage : st.active_file_idx ≤ a := by
      rcases hcase with ⟨haa, _⟩ | ⟨haa, _⟩ <;> omega
    have ha1 : 1 ≤ a := Nat.le_trans hR.active_pos hage
    refine ⟨?_, ?_, ?_, ?_, ?_, ?_, ?_, ?_⟩
    · rw [hst']
      simpa [hact] using ha1
    · rw [hst']
      show st₁.files 0 = none
      rw [hoth 0 (by omega), hR.zero_none]
    · intro i hi
      rw [hst'] at hi ⊢
      simp only at hi ⊢
      rw [hact] at hi
      rw [hoth i (by omega)]
      exact hR.high_none i (by omega)
    · intro i c hc
      rw [hst'] at hc
      simp only at hc
      rcases eq_or_ne i a with hia | hia
      · subst hia
        rw [hfa] at hc
        injection hc with hc
        subst hc
        simpa using hfit
      · rw [hoth i hia] at hc
        exact hR.size_cap i c hc
    · left
      rw [hst']
      simp only [hact, hfa]
      rfl
    · intro k'
      simp only [logApply]
      rcases eq_or_ne k' k with hkk | hkk
      · subst hkk
        rw [if_pos rfl]
        refine ⟨⟨a, old.length + (1 + 4 + k'.length)⟩, old ++ serialize (.set k' v), [], ?_, ?_, ?_⟩
        · rw [hst']
          simp [indexInsert]
        · rw [hst']
          exact hfa
        · show stringDeserialize ((old ++ serialize (.set k' v)).drop
            (old.length + (1 + 4 + k'.length))) = .ok (v, [])
          have hsplit : old ++ serialize (.set k' v) =
              (old ++ 115 :: stringSerialize k') ++ stringSerialize v := by
            simp [serialize]
          rw [hsplit]
          have hlen : (old ++ 115 :: stringSerialize k').length =
              old.length + (1 + 4 + k'.length) := by
            simp [stringSerialize_length]
            omega
          have := drop_length_add (old ++ 115 :: stringSerialize k') (stringSerialize v) 0
          rw [hlen] at this
          rw [show old.length + (1 + 4 + k'.length) =
            old.length + (1 + 4 + k'.length) + 0 by omega, this]
          simp only [List.drop_zero]
          have := stringDeserialize_stringSerialize v [] hv
            (by
              have hlen9 : (serialize (Command.set k' v)).length = 9 + k'.length + v.length := by
                simp [serialize, stringSerialize_length]
                omega
              rw [hlen9] at hsz
              unfold MAX_SEGMENT_SIZE at hsz
              omega)
          simpa using this
      · rw [if_neg hkk]
        have hco := hR.coherent k'
        rcases hm : m k' with _ | v'
        · rw [hm] at hco
          rw [hst']
          simp only [indexInsert, if_neg hkk, hidx]
          exact hco
        · rw [hm] at hco
          obtain ⟨pos, content, rest, hpos, hcont, hdes⟩ := hco
          rcases eq_or_ne pos.file_idx a with hpa | hpa
          · -- the key's segment is the one that was appended to
            rcases hcase with ⟨haa, hold⟩ | ⟨haa, _⟩
            · have hcact : st.files st.active_file_idx = some content := by
                rw [← haa, ← hpa]; exact hcont
              have hoc : content = old := by
                rw [hold, hcact]
                rfl
              subst hoc
              refine ⟨pos, content ++ serialize (.set k v), rest ++ serialize (.set k v),
                ?_, ?_, ?_⟩
              · rw [hst']
                simp only [indexInsert, if_neg hkk, hidx]
                exact hpos
              · rw [hst']
                show st₁.files pos.file_idx = _
                rw [hpa]
                exact hfa
              · have hoff := stringDeserialize_off_le content pos.file_offset _ hdes
                rw [List.drop_append_of_le_length hoff]
                exact stringDeserialize_extend _ _ _ _ hdes
            · exfalso
              have : st.files pos.file_idx = none := by
                rw [hpa, haa]
                exact hR.high_none _ (by omega)
              rw [this] at hcont
              exact Option.noConfusion hcont
          · refine ⟨pos, content, rest, ?_, ?_, hdes⟩
            · rw [hst']
              simp only [indexInsert, if_neg hkk, hidx]
              exact hpos
            · rw [hst']
              rw [hoth pos.file_idx hpa]
              exact hcont
    · obtain ⟨ridx, hrep, hridx⟩ := hR.replayed
      refine ⟨applyCmdToIndex a old.length ridx (.set k v), ?_, ?_⟩
      · apply restore_after_append st st' (.set k v) a old ridx hR.zero_none
          hR.active_file hrep hvc
        · rw [hst']
          exact hact
        · rw [hst']
          exact hfa
        · intro j hj
          rw [hst']
          exact hoth j hj
        · rcases hcase with ⟨haa, hold⟩ | ⟨haa, hold, _⟩
          · exact Or.inl ⟨haa, hold⟩
          · exact Or.inr ⟨haa, hold⟩
      · intro k'
        simp only [applyCmdToIndex, getValueOffset, indexInsert]
        rw [hst']
        simp only [indexInsert]
        rcases eq_or_ne k' k with hkk | hkk
        · rw [if_pos hkk, if_pos hkk]
          rfl
        · rw [if_neg hkk, if_neg hkk, hidx]
          exact hridx k'
    · intro k' v' hk'
      simp only [logApply] at hk'
      rcases eq_or_ne k' k with hkk | hkk
      · subst hkk
        have hlen : (serialize (Command.set k' v)).length = 9 + k'.length + v.length := by
          simp [serialize, stringSerialize_length]
          omega
        rw [hlen] at hsz
        omega
      · rw [if_neg hkk] at hk'
        exact hR.key_bound k' v' hk'

/-- An index entry for a segment position keeps decoding the same value
after the writer appends one record (the appended segment either grows at
its end, or is a brand-new segment no entry can point into). -/
theorem entry_survives_append (st st₁ : KvState) (cmd : Command) (a : Nat)
    (old : List Byte) (pos : KvStorePosition) (content rest v' : List Byte)
    (hhigh : ∀ i, st.active_file_idx < i → st.files i = none)
    (hfa : st₁.files a = some (old ++ serialize cmd))
    (hoth : ∀ j, j ≠ a → st₁.files j = st.files j)
    (hcase : (a = st.active_file_idx ∧ old = (st.files st.active_file_idx).getD []) ∨
      (a = st.active_file_idx + 1 ∧ old = []))
    (hcont : st.files pos.file_idx = some content)
    (hdes : stringDeserialize (content.drop pos.file_offset) = .ok (v', rest)) :
    ∃ content' rest', st₁.files pos.file_idx = some content' ∧
      stringDeserialize (content'.drop pos.file_offset) = .ok (v', rest') := by
  rcases eq_or_ne pos.file_idx a with hpa | hpa
  · rcases hcase with ⟨haa, hold⟩ | ⟨haa, _⟩
    · have hcact : st.files st.active_file_idx = some content := by
        rw [← haa, ← hpa]; exact hcont
      have hoc : content = old := by
        rw [hold, hcact]
        rfl
      subst hoc
      refine ⟨content ++ serialize cmd, rest ++ serialize cmd, ?_, ?_⟩
      · rw [hpa]
        exact hfa
      · have hoff := stringDeserialize_off_le content pos.file_offset _ hdes
        rw [List.drop_append_of_le_length hoff]
        exact stringDeserialize_extend _ _ _ _ hdes
    · exfalso
      have : st.files pos.file_idx = none := by
        rw [hpa, haa]
        exact hhigh _ (by omega)
      rw [this] at hcont
      exact Option.noConfusion hcont
  · refine ⟨content, rest, ?_, hdes⟩
    rw [hoth _ hpa]
    exact hcont

/-- Preservation of `Reach` by a successful `remove`. -/
theorem reach_remove (st : KvState) (m : List Byte → Option (List Byte)) (k : List Byte)
    (st' : KvState) (hR : Reach st m) (hk : validUtf8 k = true)
    (hrun : runOp st (.remove k) = (st', .ok ())) :
    Reach st' (logApply m (.remove k)) := by
  rcases hidx0 : st.index k with _ | p
  · -- absent key: `existed = false`, no record, no state change
    have hst' : st' = st := by
      simp only [runOp, kvRemove, hidx0] at hrun
      exact (congrArg Prod.fst hrun).symm
    subst hst'
    refine ⟨hR.active_pos, hR.zero_none, hR.high_none, hR.size_cap, hR.active_file, ?_,
      hR.replayed, ?_⟩
    · intro k'
      simp only [logApply]
      rcases eq_or_ne k' k with hkk | hkk
      · subst hkk
        rw [if_pos rfl]
        exact hidx0
      · rw [if_neg hkk]
        exact hR.coherent k'
    · intro k' v' hk'
      simp only [logApply] at hk'
      rcases eq_or_ne k' k with hkk | hkk
      · rw [if_pos hkk] at hk'
        exact Option.noConfusion hk'
      · rw [if_neg hkk] at hk'
        exact hR.key_bound k' v' hk'
  · -- present key: the entry is deleted, then the tombstone is appended
    by_cases hsz : (serialize (.remove k)).length ≤ MAX_SEGMENT_SIZE
    case neg =>
      exfalso
      have hW : kvWrite true { st with index := indexRemove st.index k } (.remove k) =
          ({ st with index := indexRemove st.index k }, .error ()) := by
        unfold kvWrite
        rw [if_pos (by omega)]
      simp only [runOp, kvRemove, hidx0, hW] at hrun
      exact Except.noConfusion (congrArg Prod.snd hrun)
    case pos =>
      have hvc : validCommand (.remove k) = true := by
        have hlen : (serialize (.remove k)).length = 5 + k.length := by
          simp [serialize, stringSerialize_length]
          omega
        have hkb : k.length < 4294967296 := by
          rw [hlen] at hsz; unfold MAX_SEGMENT_SIZE at hsz; omega
        simp [validCommand, hk, hkb]
      obtain ⟨st₂, r, a, old, hW, _hrsome, hrnone, hact, hidx, hfa, hoth, hfit, hcase⟩ :=
        kvWrite_spec { st with index := indexRemove st.index k } (.remove k)
          hR.high_none hsz
      have hst' : st' = st₂ := by
        simp only [runOp, kvRemove, hidx0, hW] at hrun
        exact (congrArg Prod.fst hrun).symm
      subst hst'
      have hage : st.active_file_idx ≤ a := by
        rcases hcase with ⟨haa, _⟩ | ⟨haa, _⟩ <;>
          simp only at haa <;> omega
      have ha1 : 1 ≤ a := Nat.le_trans hR.active_pos hage
      refine ⟨?_, ?_, ?_, ?_, ?_, ?_, ?_, ?_⟩
      · rw [hact]
        exact ha1
      · rw [hoth 0 (by omega)]
        exact hR.zero_none
      · intro i hi
        rw [hact] at hi
        rw [hoth i (by omega)]
        exact hR.high_none i (by omega)
      · intro i c hc
        rcases eq_or_ne i a with hia | hia
        · subst hia
          rw [hfa] at hc
          injection hc with hc
          subst hc
          simpa using hfit
        · rw [hoth i hia] at hc
          exact hR.size_cap i c hc
      · left
        rw [hact, hfa]
        rfl
      · intro k'
        simp only [logApply]
        rcases eq_or_ne k' k with hkk | hkk
        · subst hkk
          rw [if_pos rfl, hidx]
          simp [indexRemove]
        · rw [if_neg hkk]
          have hco := hR.coherent k'
          rcases hm : m k' with _ | v'
          · rw [hm] at hco
            rw [hidx]
            simp only [indexRemove, if_neg hkk]
            exact hco
          · rw [hm] at hco
            obtain ⟨pos, content, rest, hpos, hcont, hdes⟩ := hco
            obtain ⟨content', rest', hcont', hdes'⟩ :=
              entry_survives_append st st' (.remove k) a old pos content rest v'
                hR.high_none hfa hoth
                (by
                  rcases hcase with ⟨haa, hold⟩ | ⟨haa, hold, _⟩
                  · exact Or.inl ⟨haa, hold⟩
                  · exact Or.inr ⟨haa, hold⟩)
                hcont hdes
            refine ⟨pos, content', rest', ?_, hcont', hdes'⟩
            rw [hidx]
            simp only [indexRemove, if_neg hkk]
            exact hpos
      · obtain ⟨ridx, hrep, hridx⟩ := hR.replayed
        refine ⟨applyCmdToIndex a old.length ridx (.remove k), ?_, ?_⟩
        · apply restore_after_append st st' (.remove k) a old ridx hR.zero_none
            hR.active_file hrep hvc hact hfa hoth
          rcases hcase with ⟨haa, hold⟩ | ⟨haa, hold, _⟩
          · exact Or.inl ⟨haa, hold⟩
          · exact Or.inr ⟨haa, hold⟩
        · intro k'
          simp only [applyCmdToIndex]
          rw [hidx]
          simp only [indexRemove]
          rcases eq_or_ne k' k with hkk | hkk
          · rw [if_pos hkk, if_pos hkk]
          · rw [if_neg hkk, if_neg hkk]
            exact hridx k'
      · intro k' v' hk'
        simp only [logApply] at hk'
        rcases eq_or_ne k' k with hkk | hkk
        · rw [if_pos hkk] at hk'
          exact Option.noConfusion hk'
        · rw [if_neg hkk] at hk'
          exact hR.key_bound k' v' hk'

/-- Preservation of `Reach` by `reset`. -/
theorem reach_reset (st : KvState) (m : List Byte → Option (List Byte)) (st' : KvState)
    (hR : Reach st m) (hrun : runOp st .reset = (st', .ok ())) :
    Reach st' (logApply m .reset) := by
  have hst' : st' = resetState st := by
    simp only [runOp, kvReset] at hrun
    exact (congrArg Prod.fst hrun).symm
  subst hst'
  have hnone : ∀ i, resetFiles st i = none := by
    intro i
    unfold resetFiles
    by_cases hi : 1 ≤ i ∧ i ≤ st.active_file_idx
    · rw [if_pos hi]
    · rw [if_neg hi]
      rcases Nat.eq_zero_or_pos i with h0 | h1
      · subst h0
        exact hR.zero_none
      · exact hR.high_none i (by omega)
  refine ⟨Nat.le_refl _, hnone 0, fun i _ => hnone i, ?_, Or.inr ⟨rfl, hnone⟩, ?_, ?_,
    fun k v h => Option.noConfusion h⟩
  · intro i c hc
    rw [show (resetState st).files i = none from hnone i] at hc
    exact Option.noConfusion hc
  · intro k
    rfl
  · refine ⟨fun _ => none, ?_, fun _ => rfl⟩
    have hempty : scanIdxs (resetState st) = [] := by
      unfold scanIdxs
      rw [List.filter_eq_nil_iff]
      intro j _
      simp only [show ∀ i, (resetState st).files i = none from hnone]
      simp
    rw [hempty]
    rfl

/-- The reachability invariant over a whole successful history. -/
theorem reach_run :
    ∀ (ops : List KvOp) (st₀ : KvState) (m₀ : List Byte → Option (List Byte)) (st : KvState),
      Reach st₀ m₀ → validOps ops = true → runOps st₀ ops = .ok st →
      Reach st (ops.foldl logApply m₀) := by
  intro ops
  induction ops with
  | nil =>
    intro st₀ m₀ st hR _ hrun
    simp only [runOps] at hrun
    injection hrun with hrun
    subst hrun
    exact hR
  | cons op ops ih =>
    intro st₀ m₀ st hR hvo hrun
    have hvo1 : validOp op = true ∧ validOps ops = true := by
      simpa [validOps] using hvo
    simp only [runOps] at hrun
    rcases hro : runOp st₀ op with ⟨st₁, r⟩
    rw [hro] at hrun
    rcases r with e | u
    · exact absurd hrun (by simp)
    · rcases u
      have hR₁ : Reach st₁ (logApply m₀ op) := by
        cases op with
        | set k v =>
          have hkv : validUtf8 k = true ∧ validUtf8 v = true := by
            simpa [validOp] using hvo1.1
          exact reach_set st₀ m₀ k v st₁ hR hkv.1 hkv.2 hro
        | remove k =>
          have hk : validUtf8 k = true := by simpa [validOp] using hvo1.1
          exact reach_remove st₀ m₀ k st₁ hR hk hro
        | reset => exact reach_reset st₀ m₀ st₁ hR hro
      simpa using ih st₁ (logApply m₀ op) st hR₁ hvo1.2 hrun

/-- The invariant for a history from a fresh directory. -/
theorem reach_runStorage (ops : List KvOp) (st : KvState)
    (hv : validOps ops = true) (hrun : runStorage ops = .ok st) :
    Reach st (logRun ops) :=
  reach_run ops initState (fun _ => none) st reach_init hv hrun

/-! ## Claim theorems: the sequential storage contract -/

/-- Keys and values recorded in the logical map of a valid history are
valid UTF-8. -/
theorem logRun_valid (ops : List KvOp) (hvo : validOps ops = true) :
    ∀ K v, logRun ops K = some v → validUtf8 K = true ∧ validUtf8 v = true := by
  suffices h : ∀ (m₀ : List Byte → Option (List Byte)),
      (∀ K v, m₀ K = some v → validUtf8 K = true ∧ validUtf8 v = true) →
      ∀ K v, ops.foldl logApply m₀ K = some v → validUtf8 K = true ∧ validUtf8 v = true by
    exact h (fun _ => none) (fun K v hh => Option.noConfusion hh)
  induction ops with
  | nil => intro m₀ h K v hK; exact h K v hK
  | cons op ops ih =>
    intro m₀ h K v hK
    have hvo1 : validOp op = true ∧ validOps ops = true := by
      simpa [validOps] using hvo
    have hvo' : validOps ops = true := hvo1.1.symm ▸ hvo1.2
    refine ih hvo' (logApply m₀ op) ?_ K v hK
    intro K' v' hK'
    cases op with
    | set k w =>
      have hkv : validUtf8 k = true ∧ validUtf8 w = true := by
        simpa [validOp] using hvo1.1
      simp only [logApply] at hK'
      rcases eq_or_ne K' k with hkk | hkk
      · subst hkk
        rw [if_pos rfl] at hK'
        injection hK' with hK'
        subst hK'
        exact hkv
      · rw [if_neg hkk] at hK'
        exact h K' v' hK'
    | remove k =>
      simp only [logApply] at hK'
      rcases eq_or_ne K' k with hkk | hkk
      · rw [if_pos hkk] at hK'
        exact Option.noConfusion hK'
      · rw [if_neg hkk] at hK'
        exact h K' v' hK'
    | reset => exact Option.noConfusion hK'

/-- An indexed key is logically present. -/
theorem index_some_imp_logical (st : KvState) (m : List Byte → Option (List Byte))
    (hR : Reach st m) (K : List Byte) (p : KvStorePosition)
    (h : st.index K = some p) : ∃ v, m K = some v := by
  have hco := hR.coherent K
  rcases hm : m K with _ | v
  · rw [hm] at hco
    rw [hco] at h
    exact Option.noConfusion h
  · exact ⟨v, rfl⟩

/-- C1.  For every finite sequence of successfully returning storage
operations from a freshly opened engine whose last operation affecting
key `K` is `set(K, v)` (expressed as `logRun ops K = some v`), a
subsequent `get(K)` returns `Some(v)`. -/
theorem claim_set_then_get (ops : List KvOp) (K v : List Byte)
    (hvo : validOps ops = true) (hK : logRun ops K = some v)
    (hok : (runStorage ops).isOk = true) :
    ∃ st, runStorage ops = .ok st ∧ kvGet st K = .ok (some v) := by
  rcases hrun : runStorage ops with e | st
  · rw [hrun] at hok
    exact absurd hok (by simp [Except.isOk, Except.toBool])
  · have hR := reach_runStorage ops st hvo hrun
    have hco := hR.coherent K
    rw [hK] at hco
    obtain ⟨pos, content, rest, hpos, hcont, hdes⟩ := hco
    refine ⟨st, rfl, ?_⟩
    simp only [kvGet, readValue, hpos, hcont, hdes]

/-- Witness for C1: fresh engine, `set k v1; set k2 v2; set k v`, then
`get k`. -/
theorem claim_set_then_get_witness :
    validOps [.set [107] [118], .set [106] [119], .set [107] [120]] = true ∧
      logRun [.set [107] [118], .set [106] [119], .set [107] [120]] [107] = some [120] ∧
      (runStorage [.set [107] [118], .set [106] [119], .set [107] [120]]).isOk = true ∧
      ∃ st, runStorage [.set [107] [118], .set [106] [119], .set [107] [120]] = .ok st ∧
        kvGet st [107] = .ok (some [120]) :=
  ⟨by decide, by decide, by decide,
    claim_set_then_get [.set [107] [118], .set [106] [119], .set [107] [120]] [107] [120]
      (by decide) (by decide) (by decide)⟩

/-- C9.  `reset` is idempotent: after any successful history, two
successive `reset` calls succeed and the second is the identity; the
state after `reset` has no segment files, an empty index and active
segment index 1. -/
theorem claim_reset_idempotent (ops : List KvOp)
    (hvo : validOps ops = true) (hok : (runStorage ops).isOk = true) :
    ∃ st st₁, runStorage ops = .ok st ∧ kvReset st = (st₁, .ok ()) ∧
      kvReset st₁ = (st₁, .ok ()) ∧
      (∀ i, st₁.files i = none) ∧ (∀ k, st₁.index k = none) ∧
      st₁.active_file_idx = DEFAULT_FILE_IDX := by
  rcases hrun : runStorage ops with e | st
  · rw [hrun] at hok
    exact absurd hok (by simp [Except.isOk, Except.toBool])
  · have hR := reach_runStorage ops st hvo hrun
    have hnone : ∀ i, (resetState st).files i = none := by
      intro i
      show resetFiles st i = none
      unfold resetFiles
      by_cases hi : 1 ≤ i ∧ i ≤ st.active_file_idx
      · rw [if_pos hi]
      · rw [if_neg hi]
        rcases Nat.eq_zero_or_pos i with h0 | h1
        · subst h0
          exact hR.zero_none
        · exact hR.high_none i (by omega)
    refine ⟨st, resetState st, rfl, rfl, ?_, hnone, fun _ => rfl, rfl⟩
    have hf : resetFiles (resetState st) = resetFiles st := by
      funext i
      show (if 1 ≤ i ∧ i ≤ (resetState st).active_file_idx then none
        else (resetState st).files i) = resetFiles st i
      by_cases hi : 1 ≤ i ∧ i ≤ (resetState st).active_file_idx
      · rw [if_pos hi]
        have : i = 1 := by
          have : (resetState st).active_file_idx = 1 := rfl
          omega
        subst this
        exact (hnone 1).symm
      · rw [if_neg hi]
        rfl
    have hf2 : resetState (resetState st) = resetState st := by
      show ({ files := resetFiles (resetState st), active_file_idx := DEFAULT_FILE_IDX, index := fun _ => none } : KvState) = resetState st
      rw [hf]
      rfl
    show (resetState (resetState st), Except.ok ()) = (resetState st, Except.ok ())
    rw [hf2]

/-- Witness for C9 on the history `set k v; remove k`. -/
theorem claim_reset_idempotent_witness :
    validOps [.set [107] [118], .remove [107]] = true ∧
      (runStorage [.set [107] [118], .remove [107]]).isOk = true ∧
      ∃ st st₁, runStorage [.set [107] [118], .remove [107]] = .ok st ∧
        kvReset st = (st₁, .ok ()) ∧ kvReset st₁ = (st₁, .ok ()) ∧
        (∀ i, st₁.files i = none) ∧ (∀ k, st₁.index k = none) ∧
        st₁.active_file_idx = DEFAULT_FILE_IDX :=
  ⟨by decide, by decide,
    claim_reset_idempotent [.set [107] [118], .remove [107]] (by decide) (by decide)⟩

/-- C3.  `remove` of a key present in the index appends a tombstone
record to the active segment and returns `existed = true`, after which
`get` of that key returns `None`; `remove` of an absent key appends no
record, is not an error, and returns `existed = false`; and whenever the
last operation affecting a key was a `remove` (or the key was never set),
`get` returns `None`. -/
theorem claim_remove_semantics (ops : List KvOp) (K : List Byte)
    (hvo : validOps ops = true) (hok : (runStorage ops).isOk = true) :
    ∃ st, runStorage ops = .ok st ∧
      (∀ p, st.index K = some p →
        ∃ st', kvRemove true st K = (st', .ok true) ∧ st'.index K = none ∧
          st'.files st'.active_file_idx =
            some ((st.files st'.active_file_idx).getD [] ++ serialize (.remove K)) ∧
          kvGet st' K = .ok none) ∧
      (st.index K = none → kvRemove true st K = (st, .ok false)) ∧
      (logRun ops K = none → kvGet st K = .ok none) := by
  rcases hrun : runStorage ops with e | st
  · rw [hrun] at hok
    exact absurd hok (by simp [Except.isOk, Except.toBool])
  · have hR := reach_runStorage ops st hvo hrun
    refine ⟨st, rfl, ?_, ?_, ?_⟩
    · intro p hp
      obtain ⟨v, hm⟩ := index_some_imp_logical st (logRun ops) hR K p hp
      have hkb := hR.key_bound K v hm
      have hKvalid : validUtf8 K = true := (logRun_valid ops hvo K v hm).1
      have hlen : (serialize (.remove K)).length = 5 + K.length := by
        simp [serialize, stringSerialize_length]
        omega
      have hsz : (serialize (.remove K)).length ≤ MAX_SEGMENT_SIZE := by omega
      obtain ⟨st₂, r, a, old, hW, _hrsome, _hrnone, hact, hidx, hfa, hoth, hfit, hcase⟩ :=
        kvWrite_spec { st with index := indexRemove st.index K } (.remove K)
          hR.high_none hsz
      have hrem : kvRemove true st K = (st₂, .ok true) := by
        simp only [kvRemove, hp, hW]
      have hidxK : st₂.index K = none := by
        rw [hidx]
        simp [indexRemove]
      refine ⟨st₂, hrem, hidxK, ?_, ?_⟩
      · rw [hact]
        rcases hcase with ⟨haa, hold⟩ | ⟨haa, hold, _⟩
        · simp only at haa hold
          rw [haa] at hfa ⊢
          rw [← hold]
          exact hfa
        · simp only at haa hold
          rw [haa] at hfa ⊢
          rw [show st.files (st.active_file_idx + 1) = none from
            hR.high_none _ (by omega)]
          rw [hold] at hfa
          exact hfa
      · simp only [kvGet, hidxK]
    · intro h
      simp only [kvRemove, h]
    · intro hnone
      have hco := hR.coherent K
      rw [hnone] at hco
      simp only [kvGet, hco]

/-- Witness for C3 on the history `set k v; set k2 v2; remove k2`,
checking the present key `k`, the now-absent key `k2`, and the
tombstoned read. -/
theorem claim_remove_semantics_witness :
    validOps [.set [107] [118], .set [106] [119], .remove [106]] = true ∧
      (runStorage [.set [107] [118], .set [106] [119], .remove [106]]).isOk = true ∧
      ∃ st, runStorage [.set [107] [118], .set [106] [119], .remove [106]] = .ok st ∧
        (∀ p, st.index [106] = some p →
          ∃ st', kvRemove true st [106] = (st', .ok true) ∧ st'.index [106] = none ∧
            st'.files st'.active_file_idx =
              some ((st.files st'.active_file_idx).getD [] ++ serialize (.remove [106])) ∧
            kvGet st' [106] = .ok none) ∧
        (st.index [106] = none → kvRemove true st [106] = (st, .ok false)) ∧
        (logRun [.set [107] [118], .set [106] [119], .remove [106]] [106] = none →
          kvGet st [106] = .ok none) :=
  ⟨by decide, by decide,
    claim_remove_semantics [.set [107] [118], .set [106] [119], .remove [106]] [106]
      (by decide) (by decide)⟩

/-- C5.  A single record larger than the segment cap is rejected before
any file is touched; after every successful history each on-disk segment
is at most `MAX_SEGMENT_SIZE` bytes; and a `set` whose record would
overflow the active segment rotates to a fresh segment instead of
exceeding the cap. -/
theorem claim_segment_cap (ops : List KvOp)
    (hvo : validOps ops = true) (hok : (runStorage ops).isOk = true) :
    (∀ st₀ cmd, MAX_SEGMENT_SIZE < (serialize cmd).length →
      kvWrite true st₀ cmd = (st₀, .error ())) ∧
    ∃ st, runStorage ops = .ok st ∧
      (∀ i c, st.files i = some c → c.length ≤ MAX_SEGMENT_SIZE) ∧
      (∀ k v, (serialize (.set k v)).length ≤ MAX_SEGMENT_SIZE →
        MAX_SEGMENT_SIZE <
          ((st.files st.active_file_idx).getD []).length + (serialize (.set k v)).length →
        ∃ st', kvSet true st k v = (st', .ok ()) ∧
          st'.active_file_idx = st.active_file_idx + 1 ∧
          st'.files st.active_file_idx = st.files st.active_file_idx ∧
          st'.files (st.active_file_idx + 1) = some (serialize (.set k v))) := by
  constructor
  · intro st₀ cmd hbig
    unfold kvWrite
    rw [if_pos (by omega)]
  · rcases hrun : runStorage ops with e | st
    · rw [hrun] at hok
      exact absurd hok (by simp [Except.isOk, Except.toBool])
    · have hR := reach_runStorage ops st hvo hrun
      refine ⟨st, rfl, hR.size_cap, ?_⟩
      intro k v hsz hrot
      obtain ⟨st₂, r, a, old, hW, hrsome, _hrnone, hact, hidx, hfa, hoth, hfit, hcase⟩ :=
        kvWrite_spec st (.set k v) hR.high_none hsz
      have hr : r = some ⟨a, old.length + (1 + 4 + k.length)⟩ := hrsome _ rfl
      subst hr
      have hcase' : a = st.active_file_idx + 1 ∧ old = [] := by
        rcases hcase with ⟨haa, hold⟩ | ⟨haa, hold, _⟩
        · exfalso
          rw [← hold] at hrot
          omega
        · exact ⟨haa, hold⟩
      obtain ⟨haa, hold⟩ := hcase'
      subst haa
      subst hold
      refine ⟨{ st₂ with index := indexInsert st₂.index k ⟨st.active_file_idx + 1, List.length ([] : List Byte) + (1 + 4 + k.length)⟩ }, ?_, hact, ?_, ?_⟩
      · simp only [kvSet, hW]
      · show st₂.files st.active_file_idx = _
        rw [hoth st.active_file_idx (by omega)]
      · show st₂.files (st.active_file_idx + 1) = _
        simpa using hfa

/-- Witness for C5 on the empty history (actual overflow histories do
not fit in a kernel-checked witness; the rotation clause is exercised
with the hypotheses discharged vacuously at sizes below the cap bound is
not needed — the top-level hypotheses are concrete). -/
theorem claim_segment_cap_witness :
    validOps [.set [107] [118]] = true ∧
      (runStorage [.set [107] [118]]).isOk = true ∧
      ((∀ st₀ cmd, MAX_SEGMENT_SIZE < (serialize cmd).length →
          kvWrite true st₀ cmd = (st₀, .error ())) ∧
        ∃ st, runStorage [.set [107] [118]] = .ok st ∧
          (∀ i c, st.files i = some c → c.length ≤ MAX_SEGMENT_SIZE) ∧
          (∀ k v, (serialize (.set k v)).length ≤ MAX_SEGMENT_SIZE →
            MAX_SEGMENT_SIZE <
              ((st.files st.active_file_idx).getD []).length +
                (serialize (.set k v)).length →
            ∃ st', kvSet true st k v = (st', .ok ()) ∧
              st'.active_file_idx = st.active_file_idx + 1 ∧
              st'.files st.active_file_idx = st.files st.active_file_idx ∧
              st'.files (st.active_file_idx + 1) = some (serialize (.set k v)))) :=
  ⟨by decide, by decide, claim_segment_cap [.set [107] [118]] (by decide) (by decide)⟩

/-- C2.  After a successful history whose last operation affecting `K`
is `set(K, v)`, reopening the directory replays the segments in
ascending index order and rebuilds exactly the writer's index — every
key maps to the same `(segment index, value offset)` position — with the
same active segment; `get(K)` on the reopened engine returns `Some(v)`. -/
theorem claim_reopen_get (ops : List KvOp) (K v : List Byte)
    (hvo : validOps ops = true) (hK : logRun ops K = some v)
    (hok : (runStorage ops).isOk = true) :
    ∃ st st', runStorage ops = .ok st ∧ openModel st = .ok st' ∧
      st'.files = st.files ∧ st'.active_file_idx = st.active_file_idx ∧
      (∀ k, st'.index k = st.index k) ∧ kvGet st' K = .ok (some v) := by
  rcases hrun : runStorage ops with e | st
  · rw [hrun] at hok
    exact absurd hok (by simp [Except.isOk, Except.toBool])
  · have hR := reach_runStorage ops st hvo hrun
    obtain ⟨ridx, hrep, hridx⟩ := hR.replayed
    have hactive : (scanIdxs st).getLast?.getD DEFAULT_FILE_IDX = st.active_file_idx := by
      rcases hR.active_file with hsome | ⟨h1, hn⟩
      · rw [scanIdxs_split st hsome, List.getLast?_concat]
        rfl
      · have hempty : scanIdxs st = [] := by
          unfold scanIdxs
          rw [List.filter_eq_nil_iff]
          intro j _
          simp [hn j]
        rw [hempty, h1]
        rfl
    have hopen : openModel st =
        .ok { files := st.files,
              active_file_idx := (scanIdxs st).getLast?.getD DEFAULT_FILE_IDX,
              index := ridx } := by
      simp only [openModel, hrep]
    refine ⟨st, _, rfl, hopen, rfl, hactive, hridx, ?_⟩
    have hco := hR.coherent K
    rw [hK] at hco
    obtain ⟨pos, content, rest, hpos, hcont, hdes⟩ := hco
    have hpos' : ridx K = some pos := by rw [hridx K]; exact hpos
    simp only [kvGet, readValue, hpos', hcont, hdes]

/-- Witness for C2 on the history `set k v; set k w; remove k2-absent;
set k2 v2`. -/
theorem claim_reopen_get_witness :
    validOps [.set [107] [118], .set [107] [119], .set [106] [120]] = true ∧
      logRun [.set [107] [118], .set [107] [119], .set [106] [120]] [107] = some [119] ∧
      (runStorage [.set [107] [118], .set [107] [119], .set [106] [120]]).isOk = true ∧
      ∃ st st', runStorage [.set [107] [118], .set [107] [119], .set [106] [120]] =
          .ok st ∧ openModel st = .ok st' ∧
        st'.files = st.files ∧ st'.active_file_idx = st.active_file_idx ∧
        (∀ k, st'.index k = st.index k) ∧ kvGet st' [107] = .ok (some [119]) :=
  ⟨by decide, by decide, by decide,
    claim_reopen_get [.set [107] [118], .set [107] [119], .set [106] [120]] [107] [119]
      (by decide) (by decide) (by decide)⟩

/-! ## Failed appends (C4) -/

/-- A `write` whose physical append or sync fails always returns an
error and never touches the index (rotation side effects persist). -/
theorem kvWrite_false_spec (st : KvState) (cmd : Command) :
    (kvWrite false st cmd).2 = .error () ∧ (kvWrite false st cmd).1.index = st.index := by
  by_cases h : (serialize cmd).length > MAX_SEGMENT_SIZE
  · simp [kvWrite, if_pos h]
  · simp only [kvWrite, if_neg h]
    rcases hL : writeLoop st.files st.active_file_idx (serialize cmd).length 2
      with _ | ⟨fs1, a⟩ <;> simp [hL]

/-- The claim C4 is wrong for `remove`: the index entry is deleted
before the append, so a failed append leaves the key gone from the
index even though the call reports an error.  Concretely: after
`set "k" "v"`, a `remove "k"` whose append fails returns an error, yet
the index no longer holds `"k"`. -/
theorem claim_failed_append_counterexample :
    ∃ st, runStorage [.set [107] [118]] = .ok st ∧
      st.index [107] = some ⟨1, 6⟩ ∧
      (kvRemove false st [107]).2.isOk = false ∧
      (kvRemove false st [107]).1.index [107] = none := by
  refine ⟨_, rfl, ?_, ?_, ?_⟩ <;> decide

/-- C4 amended.  On a failed append, `set` returns an error and leaves
the index untouched; `remove` of a present key returns an error with
that key's entry already deleted from the index (the deletion precedes
the append) while every other key's mapping is unchanged; `remove` of an
absent key does not reach the writer at all. -/
theorem claim_failed_append (st : KvState) (k : List Byte) (p : KvStorePosition)
    (hp : st.index k = some p) :
    (∀ k' v', (kvSet false st k' v').2 = .error () ∧
      (kvSet false st k' v').1.index = st.index) ∧
    (kvRemove false st k).2 = .error () ∧
    (kvRemove false st k).1.index k = none ∧
    (∀ k', k' ≠ k → (kvRemove false st k).1.index k' = st.index k') ∧
    (∀ k', st.index k' = none → kvRemove false st k' = (st, .ok false)) := by
  have hw := kvWrite_false_spec { st with index := indexRemove st.index k } (.remove k)
  rcases hW : kvWrite false { st with index := indexRemove st.index k } (.remove k)
    with ⟨st₂, r⟩
  rw [hW] at hw
  simp only at hw
  obtain ⟨hw1, hw2⟩ := hw
  rcases r with e | b
  · rcases e
    have hkr : kvRemove false st k = (st₂, .error ()) := by
      simp only [kvRemove, hp, hW]
    refine ⟨?_, ?_, ?_, ?_, ?_⟩
    · intro k' v'
      have hws := kvWrite_false_spec st (.set k' v')
      rcases hWs : kvWrite false st (.set k' v') with ⟨st₃, r'⟩
      rw [hWs] at hws
      simp only at hws
      rcases r' with e' | q'
      · rcases e'
        constructor
        · simp only [kvSet, hWs]
        · simp only [kvSet, hWs]
          exact hws.2
      · exact absurd hws.1 (by simp)
    · rw [hkr]
    · rw [hkr]
      show st₂.index k = none
      rw [hw2]
      simp [indexRemove]
    · intro k' hk'
      rw [hkr]
      show st₂.index k' = st.index k'
      rw [hw2]
      simp [indexRemove, hk']
    · intro k' hk'
      simp only [kvRemove, hk']
  · exact absurd hw1 (by simp)

/-- Witness for the amended C4 at a concrete present key. -/
theorem claim_failed_append_witness :
    ∃ st, runStorage [.set [107] [118]] = .ok st ∧ st.index [107] = some ⟨1, 6⟩ ∧
      ((∀ k' v', (kvSet false st k' v').2 = .error () ∧
          (kvSet false st k' v').1.index = st.index) ∧
        (kvRemove false st [107]).2 = .error () ∧
        (kvRemove false st [107]).1.index [107] = none ∧
        (∀ k', k' ≠ [107] → (kvRemove false st [107]).1.index k' = st.index k') ∧
        (∀ k', st.index k' = none → kvRemove false st k' = (st, .ok false))) := by
  refine ⟨_, rfl, by decide, claim_failed_append _ [107] ⟨1, 6⟩ (by decide)⟩

/-! ## Replay tag handling (C7) -/

theorem take_length_add {α : Type} (l₁ l₂ : List α) (n : Nat) :
    (l₁ ++ l₂).take (l₁.length + n) = l₁ ++ l₂.take n := by
  induction l₁ with
  | nil => simp
  | cons x xs ih => simp [Nat.succ_add, ih]

theorem stringDeserialize_short (bs : List Byte) (h : bs.length < 4) :
    stringDeserialize bs = .error () := by
  match bs, h with
  | [], _ => rfl
  | [a], _ => rfl
  | [a, b], _ => rfl
  | [a, b, c], _ => rfl
  | a :: b :: c :: d :: r, h => simp at h; omega

theorem stringDeserialize_len_err (s R : List Byte) (hs : s.length < 2 ^ 32)
    (hR : R.length < s.length) :
    stringDeserialize (u32Bytes s.length ++ R) = .error () := by
  unfold u32Bytes
  simp only [List.cons_append, List.nil_append, stringDeserialize]
  rw [show u32OfBytes (s.length / 2 ^ 24 % 256) (s.length / 2 ^ 16 % 256)
      (s.length / 2 ^ 8 % 256) (s.length % 256) = s.length from
    u32OfBytes_u32Bytes s.length hs]
  rw [if_neg (by omega)]

theorem stringDeserialize_take_err (s ys : List Byte) (m : Nat)
    (hs : s.length < 2 ^ 32) (hm : m < 4 + s.length) :
    stringDeserialize ((stringSerialize s ++ ys).take m) = .error () := by
  rcases Nat.lt_or_ge m 4 with h4 | h4
  · apply stringDeserialize_short
    have hle : ((stringSerialize s ++ ys).take m).length ≤ m := by
      rw [List.length_take]
      exact Nat.min_le_left _ _
    omega
  · obtain ⟨n, rfl⟩ : ∃ n, m = 4 + n := ⟨m - 4, by omega⟩
    have hsplit : stringSerialize s ++ ys = u32Bytes s.length ++ (s ++ ys) := by
      simp [stringSerialize]
    rw [hsplit]
    rw [show (4 : Nat) + n = (u32Bytes s.length).length + n by rw [u32Bytes_length]]
    rw [take_length_add]
    apply stringDeserialize_len_err s _ hs
    have hle : (List.take n (s ++ ys)).length ≤ n := by
      rw [List.length_take]
      exact Nat.min_le_left _ _
    omega

/-- A record truncated anywhere strictly inside its serialized bytes is
a decode error (the stream ends mid-record). -/
theorem deserialize_take_err (cmd : Command) (n : Nat) (hc : validCommand cmd = true)
    (h0 : 0 < n) (hn : n < (serialize cmd).length) :
    deserialize ((serialize cmd).take n) = .error () := by
  obtain ⟨m, rfl⟩ : ∃ m, n = m + 1 := ⟨n - 1, by omega⟩
  cases cmd with
  | set k v =>
    simp only [validCommand, Bool.and_eq_true, decide_eq_true_eq] at hc
    obtain ⟨⟨⟨hk, hv⟩, hkl⟩, hvl⟩ := hc
    simp only [serialize, List.length_cons] at hn
    rcases Nat.lt_or_ge m (stringSerialize k).length with hlt | hge
    · have herr : stringDeserialize ((stringSerialize k ++ stringSerialize v).take m) =
          .error () := by
        apply stringDeserialize_take_err k (stringSerialize v) m hkl
        rw [stringSerialize_length] at hlt
        exact hlt
      simp [serialize, deserialize, List.take_succ_cons, herr]
    · obtain ⟨j, rfl⟩ : ∃ j, m = (stringSerialize k).length + j :=
        ⟨m - (stringSerialize k).length, by omega⟩
      have hok := stringDeserialize_stringSerialize k ((stringSerialize v).take j) hk hkl
      have herr2 : stringDeserialize ((stringSerialize v).take j) = .error () := by
        have hj : j < 4 + v.length := by
          rw [List.length_append, stringSerialize_length, stringSerialize_length] at hn
          omega
        simpa using stringDeserialize_take_err v [] j hvl hj
      simp [serialize, deserialize, List.take_succ_cons, take_length_add, hok, herr2]
  | get k =>
    simp only [validCommand, Bool.and_eq_true, decide_eq_true_eq] at hc
    obtain ⟨hk, hkl⟩ := hc
    simp only [serialize, List.length_cons] at hn
    have herr : stringDeserialize ((stringSerialize k).take m) = .error () := by
      have hj : m < 4 + k.length := by
        rw [stringSerialize_length] at hn
        omega
      simpa using stringDeserialize_take_err k [] m hkl hj
    simp [serialize, deserialize, List.take_succ_cons, herr]
  | remove k =>
    simp only [validCommand, Bool.and_eq_true, decide_eq_true_eq] at hc
    obtain ⟨hk, hkl⟩ := hc
    simp only [serialize, List.length_cons] at hn
    have herr : stringDeserialize ((stringSerialize k).take m) = .error () := by
      have hj : m < 4 + k.length := by
        rw [stringSerialize_length] at hn
        omega
      simpa using stringDeserialize_take_err k [] m hkl hj
    simp [serialize, deserialize, List.take_succ_cons, herr]
  | reset =>
    simp only [serialize, List.length_cons, List.length_nil] at hn
    omega

theorem replayFile_bad_tag (idx : StoreIndex) (fidx : Nat) (t : Byte) (rest : List Byte)
    (h1 : t ≠ 115) (h2 : t ≠ 114) (h3 : t ≠ 103) (h4 : t ≠ 122) :
    replayFile idx fidx (t :: rest) = .error () := by
  have hd : deserialize (t :: rest) = .error () := by
    simp [deserialize, h1, h2, h3, h4]
  simp [replayFile, replayGo, hd]

/-- C7 is wrong about the wire-only tags: replay of a segment containing
a `Get` record (tag `g`) succeeds — `open` does not fail — and the
record contributes nothing to the restored index. -/
theorem claim_replay_wire_tag_counterexample :
    (openModel { files := fun i => if i = 1 then some (serialize (.get [107])) else none, active_file_idx := 1, index := fun _ => none }).isOk = true ∧
    ((openModel { files := fun i => if i = 1 then some (serialize (.get [107])) else none, active_file_idx := 1, index := fun _ => none }).toOption.map
      fun s => s.index [107]) = some none := by
  constructor <;> decide

/-- C7 amended.  Replay fails on a record whose tag byte is outside the
four codec tags `s`, `r`, `g`, `z`, and on a record truncated mid-file;
the wire-only tags `g` (Get) and `z` (Reset) are decoded and skipped by
replay, contributing nothing to the restored index (the `open` does not
fail on them). -/
theorem claim_replay_tag_rules (t : Byte) (rest : List Byte) (idx : StoreIndex)
    (fidx : Nat) (k : List Byte) (cmd : Command) (n : Nat)
    (h1 : t ≠ 115) (h2 : t ≠ 114) (h3 : t ≠ 103) (h4 : t ≠ 122)
    (hk : validUtf8 k = true) (hkl : k.length < 2 ^ 32)
    (hc : validCommand cmd = true) (h0 : 0 < n) (hn : n < (serialize cmd).length) :
    replayFile idx fidx (t :: rest) = .error () ∧
    deserialize ((serialize cmd).take n) = .error () ∧
    replayFile idx fidx (serialize (.get k)) = .ok idx ∧
    replayFile idx fidx (serialize .reset) = .ok idx := by
  refine ⟨replayFile_bad_tag idx fidx t rest h1 h2 h3 h4,
    deserialize_take_err cmd n hc h0 hn, ?_, ?_⟩
  · have hvk : validCommand (.get k) = true := by
      have hkl' : k.length < 4294967296 := hkl
      simp [validCommand, hk, hkl']
    have := replayFile_extend_record idx fidx [] (.get k) idx hvk rfl
    simpa [applyCmdToIndex] using this
  · have := replayFile_extend_record idx fidx [] .reset idx rfl rfl
    simpa [applyCmdToIndex] using this

/-- Witness for the amended C7: unknown tag 99, a truncated
`Set("k","v")` record cut after three bytes, and wire records for key
"k". -/
theorem claim_replay_tag_rules_witness :
    ((99 : Nat) ≠ 115 ∧ (99 : Nat) ≠ 114 ∧ (99 : Nat) ≠ 103 ∧ (99 : Nat) ≠ 122 ∧
      validUtf8 [107] = true ∧ [107].length < 2 ^ 32 ∧
      validCommand (.set [107] [118]) = true ∧ 0 < 3 ∧
      3 < (serialize (.set [107] [118])).length) ∧
    (replayFile (fun _ => none) 1 (99 :: []) = .error () ∧
      deserialize ((serialize (.set [107] [118])).take 3) = .error () ∧
      replayFile (fun _ => none) 1 (serialize (.get [107])) = .ok (fun _ => none) ∧
      replayFile (fun _ => none) 1 (serialize .reset) = .ok (fun _ => none)) :=
  ⟨by decide,
    claim_replay_tag_rules 99 [] (fun _ => none) 1 [107] (.set [107] [118]) 3
      (by decide) (by decide) (by decide) (by decide) (by decide) (by decide)
      (by decide) (by decide) (by decide)⟩

/-! ## Directory scan and temp-file names (C8)

`open` filters directory entries by the `.log` extension and feeds them
to `path_to_idx`, which splits the file stem on `_` and parses the last
part as a decimal integer.  File names are modelled as `List Char`;
Rust's `format!("kv_{}.log", idx)` prints the index in decimal. -/

def digitChar (d : Nat) : Char :=
  match d with
  | 0 => '0' | 1 => '1' | 2 => '2' | 3 => '3' | 4 => '4'
  | 5 => '5' | 6 => '6' | 7 => '7' | 8 => '8' | 9 => '9'
  | _ => '*'

/-- Decimal printing, most significant digit first (fuel-indexed). -/
def decGo : Nat → Nat → List Char → List Char
  | 0, _, acc => acc
  | fuel + 1, n, acc => if n = 0 then acc else decGo fuel (n / 10) (digitChar (n % 10) :: acc)

def natChars (n : Nat) : List Char :=
  if n = 0 then ['0'] else decGo n n []

/-- `file_idx_to_path`: `kv_<idx>.log`. -/
def kvFileName (i : Nat) : List Char :=
  ['k', 'v', '_'] ++ natChars i ++ ['.', 'l', 'o', 'g']

/-- `get_tmp_file_path`: `_tmp_<file_name>`. -/
def tmpNameOf (name : List Char) : List Char :=
  ['_', 't', 'm', 'p', '_'] ++ name

/-- Split a name at its last occurrence of `sep`:
`some (before, after)`, or `none` when `sep` does not occur. -/
def splitAtLastSep (sep : Char) : List Char → Option (List Char × List Char)
  | [] => none
  | c :: cs =>
    match splitAtLastSep sep cs with
    | some (pre, suf) => some (c :: pre, suf)
    | none => if c = sep then some ([], cs) else none

/-- `Path::extension`: the part after the last dot, none when there is
no dot or the name starts with its only dot (hidden files). -/
def fileExtOf (name : List Char) : Option (List Char) :=
  match splitAtLastSep '.' name with
  | some ([], _) => none
  | some (_, ext) => some ext
  | none => none

/-- `Path::file_stem`: the part before the last dot, or the whole name. -/
def fileStemOf (name : List Char) : List Char :=
  match splitAtLastSep '.' name with
  | some ([], _) => name
  | some (stem, _) => stem
  | none => name

/-- `usize::from_str_radix(s, 10)`: optional leading `+`, then at least
one decimal digit (the `usize` overflow bound is beyond modelled index
ranges). -/
def parseDigits (ds : List Char) : Option Nat :=
  if ds ≠ [] ∧ ds.all (fun c => c.isDigit) then
    some (ds.foldl (fun a c => 10 * a + (c.toNat - 48)) 0)
  else none

def parseUsize (cs : List Char) : Option Nat :=
  match cs with
  | '+' :: ds => parseDigits ds
  | _ => parseDigits cs

/-- `path_to_idx`: split the stem on `_`, parse the last part. -/
def pathToIdxName (name : List Char) : Option Nat :=
  let stem := fileStemOf name
  let lastPart :=
    match splitAtLastSep '_' stem with
    | some (_, suf) => suf
    | none => stem
  parseUsize lastPart

/-- The `.log`-filtered, `path_to_idx`-mapped directory listing of
`open`. -/
def scanDirNames (names : List (List Char)) : List Nat :=
  names.filterMap fun nm =>
    if fileExtOf nm = some ['l', 'o', 'g'] then pathToIdxName nm else none

def insortNat (x : Nat) : List Nat → List Nat
  | [] => [x]
  | y :: ys => if x ≤ y then x :: y :: ys else y :: insortNat x ys

def sortNats : List Nat → List Nat
  | [] => []
  | x :: xs => insortNat x (sortNats xs)

/-- The sorted segment index list `open` computes from a directory. -/
def openScanNames (names : List (List Char)) : List Nat :=
  sortNats (scanDirNames names)

theorem digitChar_spec (d : Nat) (hd : d < 10) :
    (digitChar d).isDigit = true ∧ (digitChar d).toNat = 48 + d ∧
    digitChar d ≠ '_' ∧ digitChar d ≠ '.' ∧ digitChar d ≠ '+' := by
  interval_cases d <;> exact ⟨by decide, by decide, by decide, by decide, by decide⟩

theorem decGo_zero (fuel : Nat) (acc : List Char) : decGo fuel 0 acc = acc := by
  cases fuel <;> simp [decGo]

theorem decGo_eq (fuel : Nat) :
    ∀ n acc, 0 < n → n ≤ fuel →
      decGo fuel n acc = ((Nat.digits 10 n).reverse.map digitChar) ++ acc := by
  induction fuel with
  | zero => intro n acc h1 h2; omega
  | succ fuel ih =>
    intro n acc h1 _
    simp only [decGo, if_neg (by omega : ¬n = 0)]
    have hdig : Nat.digits 10 n = n % 10 :: Nat.digits 10 (n / 10) :=
      Nat.digits_def' (by norm_num) h1
    rcases Nat.eq_zero_or_pos (n / 10) with hq | hq
    · rw [hq, decGo_zero, hdig, hq]
      simp
    · rw [ih (n / 10) (digitChar (n % 10) :: acc) hq (by omega), hdig]
      simp

theorem natChars_digits (n : Nat) (c : Char) (hc : c ∈ natChars n) :
    ∃ d, d < 10 ∧ c = digitChar d := by
  unfold natChars at hc
  by_cases h0 : n = 0
  · rw [if_pos h0] at hc
    simp at hc
    exact ⟨0, by omega, hc⟩
  · rw [if_neg h0, decGo_eq n n [] (by omega) (Nat.le_refl n)] at hc
    simp only [List.append_nil, List.mem_map, List.mem_reverse] at hc
    obtain ⟨d, hd, rfl⟩ := hc
    exact ⟨d, Nat.digits_lt_base (by norm_num) hd, rfl⟩

theorem natChars_no_sep (n : Nat) :
    '_' ∉ natChars n ∧ '.' ∉ natChars n := by
  constructor
  · intro hm
    obtain ⟨d, hd, hc⟩ := natChars_digits n _ hm
    exact (digitChar_spec d hd).2.2.1 hc.symm
  · intro hm
    obtain ⟨d, hd, hc⟩ := natChars_digits n _ hm
    exact (digitChar_spec d hd).2.2.2.1 hc.symm

theorem natChars_ne_nil (n : Nat) : natChars n ≠ [] := by
  unfold natChars
  by_cases h0 : n = 0
  · rw [if_pos h0]
    simp
  · rw [if_neg h0, decGo_eq n n [] (by omega) (Nat.le_refl n)]
    simp [Nat.digits_ne_nil_iff_ne_zero.mpr h0]

theorem foldl_rev_digits (L : List Nat) (a : Nat) :
    L.reverse.foldl (fun acc d => 10 * acc + d) a =
      a * 10 ^ L.length + Nat.ofDigits 10 L := by
  induction L generalizing a with
  | nil => simp
  | cons d L ih =>
    simp only [List.reverse_cons, List.foldl_append, List.foldl_cons, List.foldl_nil,
      Nat.ofDigits_cons, ih, List.length_cons]
    ring

theorem foldl_map_digitChar (L : List Nat) (h : ∀ d ∈ L, d < 10) (a : Nat) :
    (L.map digitChar).foldl (fun x c => 10 * x + (c.toNat - 48)) a =
      L.foldl (fun x d => 10 * x + d) a := by
  induction L generalizing a with
  | nil => rfl
  | cons d L ih =>
    simp only [List.map_cons, List.foldl_cons]
    rw [(digitChar_spec d (h d (by simp))).2.1]
    rw [show 48 + d - 48 = d by omega]
    exact ih (fun x hx => h x (by simp [hx])) _

theorem foldl_map_digitChar_rev (n : Nat) :
    ((Nat.digits 10 n).map digitChar).reverse.foldl
      (fun x c => 10 * x + (c.toNat - 48)) 0 = n := by
  rw [show ((Nat.digits 10 n).map digitChar).reverse =
    (Nat.digits 10 n).reverse.map digitChar by rw [List.map_reverse]]
  have hlt : ∀ d ∈ (Nat.digits 10 n).reverse, d < 10 := by
    intro d hd
    exact Nat.digits_lt_base (by norm_num) (List.mem_reverse.mp hd)
  rw [foldl_map_digitChar _ hlt 0, foldl_rev_digits]
  simpa using Nat.ofDigits_digits 10 n

theorem parseDigits_natChars (n : Nat) : parseDigits (natChars n) = some n := by
  have hdig : ∀ c ∈ natChars n, c.isDigit = true := by
    intro c hc
    obtain ⟨d, hd, rfl⟩ := natChars_digits n c hc
    exact (digitChar_spec d hd).1
  unfold parseDigits
  rw [if_pos ⟨natChars_ne_nil n, by rw [List.all_eq_true]; exact hdig⟩]
  by_cases h0 : n = 0
  · subst h0
    rfl
  · unfold natChars
    rw [if_neg h0, decGo_eq n n [] (by omega) (Nat.le_refl n)]
    simp only [List.append_nil]
    rw [show ((Nat.digits 10 n).reverse.map digitChar) =
      ((Nat.digits 10 n).map digitChar).reverse by rw [List.map_reverse]]
    rw [foldl_map_digitChar_rev n]


theorem splitAtLastSep_none (sep : Char) (cs : List Char) (h : sep ∉ cs) :
    splitAtLastSep sep cs = none := by
  induction cs with
  | nil => rfl
  | cons c cs ih =>
    simp only [splitAtLastSep]
    rw [ih (fun hm => h (by simp [hm]))]
    rw [if_neg (fun hc => h (by simp [hc]))]

theorem splitAtLastSep_last (sep : Char) (xs ys : List Char) (h : sep ∉ ys) :
    splitAtLastSep sep (xs ++ sep :: ys) = some (xs, ys) := by
  induction xs with
  | nil =>
    simp only [List.nil_append, splitAtLastSep]
    rw [splitAtLastSep_none sep ys h]
    simp
  | cons c xs ih =>
    simp [splitAtLastSep, ih]

theorem tmp_name_split (n : Nat) :
    tmpNameOf (kvFileName n) =
      (['_', 't', 'm', 'p', '_', 'k', 'v', '_'] ++ natChars n) ++ '.' :: ['l', 'o', 'g'] := by
  simp [tmpNameOf, kvFileName]

theorem tmp_name_ext (n : Nat) :
    fileExtOf (tmpNameOf (kvFileName n)) = some ['l', 'o', 'g'] := by
  unfold fileExtOf
  rw [tmp_name_split, splitAtLastSep_last '.' _ _ (by decide)]
  simp

theorem tmp_name_idx (n : Nat) :
    pathToIdxName (tmpNameOf (kvFileName n)) = some n := by
  have hstem : fileStemOf (tmpNameOf (kvFileName n)) =
      ['_', 't', 'm', 'p', '_', 'k', 'v', '_'] ++ natChars n := by
    unfold fileStemOf
    rw [tmp_name_split, splitAtLastSep_last '.' _ _ (by decide)]
    simp
  simp only [pathToIdxName, hstem]
  rw [show (['_', 't', 'm', 'p', '_', 'k', 'v', '_'] ++ natChars n : List Char) =
    ['_', 't', 'm', 'p', '_', 'k', 'v'] ++ '_' :: natChars n from rfl]
  rw [splitAtLastSep_last '_' _ _ (natChars_no_sep n).1]
  show parseUsize (natChars n) = some n
  rcases hnc : natChars n with _ | ⟨c, cs⟩
  · exact absurd hnc (natChars_ne_nil n)
  · have hcp : c ≠ '+' := by
      have hmem : c ∈ natChars n := by rw [hnc]; simp
      obtain ⟨d, hd, rfl⟩ := natChars_digits n c hmem
      exact (digitChar_spec d hd).2.2.2.2
    unfold parseUsize
    split
    · rename_i ds heq
      injection heq with h1 _
      exact absurd h1 hcp
    · rw [← hnc]
      exact parseDigits_natChars n

/-- C8 is wrong on the directory scan: the compaction temp file
`_tmp_kv_3.log` passes the `.log` filter and `path_to_idx` parses its
stem's last `_`-part as segment index 3, so `open` enumerates it — a
directory holding `kv_3.log` and `_tmp_kv_3.log` scans to the segment
list `[3, 3]` (and `open` performs no file deletion at all). -/
theorem claim_tmp_scan_counterexample :
    fileExtOf (tmpNameOf (kvFileName 3)) = some ['l', 'o', 'g'] ∧
    pathToIdxName (tmpNameOf (kvFileName 3)) = some 3 ∧
    openScanNames [kvFileName 3, tmpNameOf (kvFileName 3)] = [3, 3] :=
  ⟨by decide, by decide, by decide⟩

/-- C8 amended.  `open` does not remove a pre-existing temp file (the
compactor deletes it just before rewriting the segment); the temp file
name `_tmp_kv_<N>.log` passes the `.log`-extension filter, its stem
parses to segment index `N`, and the scan therefore enumerates `N` for
it — though the temp file itself is never opened for replay, because
replay reads `kv_<N>.log`, and the two names always differ. -/
theorem claim_tmp_file_scanned (n : Nat) (names : List (List Char))
    (h : tmpNameOf (kvFileName n) ∈ names) :
    fileExtOf (tmpNameOf (kvFileName n)) = some ['l', 'o', 'g'] ∧
    pathToIdxName (tmpNameOf (kvFileName n)) = some n ∧
    n ∈ scanDirNames names ∧
    tmpNameOf (kvFileName n) ≠ kvFileName n := by
  refine ⟨tmp_name_ext n, tmp_name_idx n, ?_, ?_⟩
  · simp only [scanDirNames, List.mem_filterMap]
    exact ⟨tmpNameOf (kvFileName n), h, by rw [if_pos (tmp_name_ext n), tmp_name_idx n]⟩
  · intro he
    have h2 := congrArg List.length he
    simp only [tmpNameOf, List.length_append, List.length_cons] at h2
    omega

/-- Witness for the amended C8 at index 3. -/
theorem claim_tmp_file_scanned_witness :
    tmpNameOf (kvFileName 3) ∈ [kvFileName 3, tmpNameOf (kvFileName 3)] ∧
      (fileExtOf (tmpNameOf (kvFileName 3)) = some ['l', 'o', 'g'] ∧
        pathToIdxName (tmpNameOf (kvFileName 3)) = some 3 ∧
        3 ∈ scanDirNames [kvFileName 3, tmpNameOf (kvFileName 3)] ∧
        tmpNameOf (kvFileName 3) ≠ kvFileName 3) :=
  ⟨by decide, claim_tmp_file_scanned 3 [kvFileName 3, tmpNameOf (kvFileName 3)] (by decide)⟩

/-! ## Compaction lemmas (C6) -/

theorem parseGo_fuel_eq :
    ∀ fuel bs fuel', bs.length < fuel → bs.length < fuel' →
      parseGo bs fuel = parseGo bs fuel' := by
  intro fuel
  induction fuel with
  | zero => intro bs fuel' h _; omega
  | succ fuel ih =>
    intro bs fuel' h h'
    match fuel', h' with
    | fuel' + 1, _ =>
      simp only [parseGo]
      match hd : deserialize bs with
      | .error e => rfl
      | .ok none => rfl
      | .ok (some (cmd, rest)) =>
        have hlt := deserialize_consumed_lt bs cmd rest hd
        have hr : parseGo rest fuel = parseGo rest fuel' :=
          ih rest fuel' (by omega) (by omega)
        simp only [hr]

theorem parseRecords_cons (c : Command) (bs : List Byte) (cmds : List Command)
    (hc : validCommand c = true) (hp : parseRecords bs = .ok cmds) :
    parseRecords (serialize c ++ bs) = .ok (c :: cmds) := by
  unfold parseRecords
  have hlen : 0 < (serialize c).length := serialize_length_pos c
  simp only [parseGo, deserialize_serialize c bs hc]
  rw [parseGo_fuel_eq ((serialize c ++ bs).length) bs (bs.length + 1)
    (by simp only [List.length_append]; omega) (by omega)]
  unfold parseRecords at hp
  rw [hp]

theorem parseRecords_concat (cmds : List Command)
    (hv : ∀ c ∈ cmds, validCommand c = true) :
    parseRecords (cmds.map serialize).flatten = .ok cmds := by
  induction cmds with
  | nil => rfl
  | cons c cs ih =>
    simp only [List.map_cons, List.flatten_cons]
    exact parseRecords_cons c _ cs (hv c (by simp))
      (ih fun x hx => hv x (by simp [hx]))

theorem parseGo_spec :
    ∀ fuel bs cmds, parseGo bs fuel = .ok cmds →
      bs.length = (cmds.map fun c => (serialize c).length).sum ∧
      ∀ c ∈ cmds, validCommand c = true := by
  intro fuel
  induction fuel with
  | zero => intro bs cmds h; exact absurd h (by simp [parseGo])
  | succ fuel ih =>
    intro bs cmds h
    simp only [parseGo] at h
    match hd : deserialize bs with
    | .error e =>
      simp only [hd] at h
      exact Except.noConfusion h
    | .ok none =>
      simp only [hd] at h
      have hbs := (deserialize_eq_none_iff bs).mp hd
      subst hbs
      injection h with h
      subst h
      exact ⟨rfl, by simp⟩
    | .ok (some (c, rest)) =>
      simp only [hd] at h
      match hp : parseGo rest fuel with
      | .error e =>
        simp only [hp] at h
        exact Except.noConfusion h
      | .ok cmds' =>
        simp only [hp] at h
        injection h with h
        subst h
        obtain ⟨hl, hv⟩ := ih rest cmds' hp
        obtain ⟨hlen, hvc⟩ := deserialize_spec bs c rest hd
        constructor
        · simp only [List.map_cons, List.sum_cons]
          omega
        · intro x hx
          rcases List.mem_cons.mp hx with hx | hx
          · subst hx; exact hvc
          · exact hv x hx

theorem parseRecords_spec (bs : List Byte) (cmds : List Command)
    (h : parseRecords bs = .ok cmds) :
    bs.length = (cmds.map fun c => (serialize c).length).sum ∧
    ∀ c ∈ cmds, validCommand c = true :=
  parseGo_spec (bs.length + 1) bs cmds h

/-! ### Association list and set helpers -/

theorem alInsert_ne_nil (l : List (List Byte × List Byte)) (k v : List Byte) :
    alInsert l k v ≠ [] := by
  cases l with
  | nil => simp [alInsert]
  | cons p t =>
    obtain ⟨k0, v0⟩ := p
    simp only [alInsert]
    split_ifs <;> simp

theorem setInsert_ne_nil (l : List (List Byte)) (k : List Byte) :
    setInsert l k ≠ [] := by
  unfold setInsert
  split_ifs with h
  · intro he
    rw [he] at h
    simp at h
  · simp

theorem alLookup_alInsert (l : List (List Byte × List Byte)) (k v k' : List Byte) :
    alLookup (alInsert l k v) k' = if k = k' then some v else alLookup l k' := by
  induction l with
  | nil => simp [alInsert, alLookup]
  | cons p t ih =>
    obtain ⟨k0, v0⟩ := p
    by_cases h0 : k0 = k
    · subst h0
      simp only [alInsert, if_pos rfl, alLookup]
      by_cases h1 : k0 = k'
      · rw [if_pos h1, if_pos h1]
      · rw [if_neg h1, if_neg h1, if_neg h1]
    · simp only [alInsert, if_neg h0, alLookup, ih]
      by_cases h1 : k0 = k'
      · rw [if_pos h1, if_neg (fun h2 => h0 (h1.trans h2.symm)), if_pos h1]
      · rw [if_neg h1, if_neg h1]

theorem alLookup_alErase (l : List (List Byte × List Byte)) (k k' : List Byte) :
    alLookup (alErase l k) k' = if k = k' then none else alLookup l k' := by
  induction l with
  | nil => simp [alErase, alLookup]
  | cons p t ih =>
    obtain ⟨k0, v0⟩ := p
    simp only [alErase, List.filter_cons] at ih ⊢
    by_cases h0 : k0 = k
    · rw [if_neg (by simp [h0])]
      rw [ih]
      by_cases h1 : k = k'
      · rw [if_pos h1, if_pos h1]
      · rw [if_neg h1, if_neg h1]
        simp only [alLookup]
        rw [if_neg (fun hc => h1 ((h0.symm.trans hc).symm ▸ rfl))]
    · rw [if_pos (by simp [h0])]
      simp only [alLookup, ih]
      by_cases h1 : k0 = k'
      · rw [if_pos h1, if_neg (fun h2 => h0 (h1.trans h2.symm)), if_pos h1]
      · rw [if_neg h1, if_neg h1]

theorem mem_setInsert (l : List (List Byte)) (k k' : List Byte) :
    k' ∈ setInsert l k ↔ k' = k ∨ k' ∈ l := by
  unfold setInsert
  split_ifs with h
  · constructor
    · intro hm; exact Or.inr hm
    · rintro (rfl | hm)
      · exact h
      · exact hm
  · simp [or_comm]

theorem mem_setErase (l : List (List Byte)) (k k' : List Byte) :
    k' ∈ setErase l k ↔ k' ∈ l ∧ k' ≠ k := by
  simp [setErase, List.mem_filter]

/-! ### Scan fold invariants -/

def sumSetSizes (l : List (List Byte × List Byte)) : Nat :=
  (l.map fun p => (serialize (Command.set p.1 p.2)).length).sum

def sumRemoveSizes (l : List (List Byte)) : Nat :=
  (l.map fun k => (serialize (Command.remove k)).length).sum

theorem alInsert_size (l : List (List Byte × List Byte)) (k v : List Byte) :
    sumSetSizes (alInsert l k v) ≤ sumSetSizes l + (serialize (Command.set k v)).length := by
  induction l with
  | nil => simp [alInsert, sumSetSizes]
  | cons p t ih =>
    obtain ⟨k0, v0⟩ := p
    simp only [alInsert]
    split_ifs with h0
    · simp only [sumSetSizes, List.map_cons, List.sum_cons]
      omega
    · simp only [sumSetSizes, List.map_cons, List.sum_cons] at ih ⊢
      omega

theorem alErase_size (l : List (List Byte × List Byte)) (k : List Byte) :
    sumSetSizes (alErase l k) ≤ sumSetSizes l := by
  induction l with
  | nil => simp [alErase, sumSetSizes]
  | cons p t ih =>
    simp only [alErase, List.filter_cons] at ih ⊢
    split_ifs with h0
    · simp only [sumSetSizes, List.map_cons, List.sum_cons] at ih ⊢
      omega
    · simp only [sumSetSizes, List.map_cons, List.sum_cons] at ih ⊢
      omega

theorem setInsert_size (l : List (List Byte)) (k : List Byte) :
    sumRemoveSizes (setInsert l k) ≤ sumRemoveSizes l + (serialize (Command.remove k)).length := by
  unfold setInsert
  split_ifs with h
  · omega
  · simp [sumRemoveSizes]

theorem setErase_size (l : List (List Byte)) (k : List Byte) :
    sumRemoveSizes (setErase l k) ≤ sumRemoveSizes l := by
  induction l with
  | nil => simp [setErase, sumRemoveSizes]
  | cons x t ih =>
    simp only [setErase, List.filter_cons] at ih ⊢
    split_ifs with h0
    · simp only [sumRemoveSizes, List.map_cons, List.sum_cons] at ih ⊢
      omega
    · simp only [sumRemoveSizes, List.map_cons, List.sum_cons] at ih ⊢
      omega

theorem scan_size :
    ∀ (cmds : List Command) (A : List (List Byte × List Byte)) (T : List (List Byte)) (C : Nat),
      sumSetSizes (List.foldl scanStep (A, T, C) cmds).1 +
        sumRemoveSizes (List.foldl scanStep (A, T, C) cmds).2.1 ≤
      sumSetSizes A + sumRemoveSizes T + (cmds.map fun c => (serialize c).length).sum := by
  intro cmds
  induction cmds with
  | nil => intro A T C; simp
  | cons c cs ih =>
    intro A T C
    simp only [List.foldl_cons, List.map_cons, List.sum_cons]
    cases c with
    | set k v =>
      have h1 := ih (alInsert A k v) (setErase T k) (C + 1)
      have h2 := alInsert_size A k v
      have h3 := setErase_size T k
      simp only [scanStep] at *
      omega
    | remove k =>
      have h1 := ih (alErase A k) (setInsert T k) (C + 1)
      have h2 := alErase_size A k
      have h3 := setInsert_size T k
      simp only [scanStep] at *
      omega
    | get k =>
      have h1 := ih A T C
      simp only [scanStep] at *
      omega
    | reset =>
      have h1 := ih A T C
      simp only [scanStep] at *
      omega

theorem scan_count_zero :
    ∀ (cmds : List Command) (A : List (List Byte × List Byte)) (T : List (List Byte)) (C : Nat),
      (A = [] → T = [] → C = 0) →
      (List.foldl scanStep (A, T, C) cmds).1 = [] →
      (List.foldl scanStep (A, T, C) cmds).2.1 = [] →
      (List.foldl scanStep (A, T, C) cmds).2.2 = 0 := by
  intro cmds
  induction cmds with
  | nil => intro A T C h hA hT; exact h hA hT
  | cons c cs ih =>
    intro A T C h
    simp only [List.foldl_cons]
    cases c with
    | set k v =>
      simp only [scanStep]
      exact ih (alInsert A k v) (setErase T k) (C + 1)
        (fun hA _ => absurd hA (alInsert_ne_nil A k v))
    | remove k =>
      simp only [scanStep]
      exact ih (alErase A k) (setInsert T k) (C + 1)
        (fun _ hT => absurd hT (setInsert_ne_nil T k))
    | get k =>
      simp only [scanStep]
      exact ih A T C h
    | reset =>
      simp only [scanStep]
      exact ih A T C h

theorem mem_alInsert (l : List (List Byte × List Byte)) (k v : List Byte)
    (p : List Byte × List Byte) (h : p ∈ alInsert l k v) : p = (k, v) ∨ p ∈ l := by
  induction l with
  | nil => simp [alInsert] at h; simp [h]
  | cons q t ih =>
    obtain ⟨k0, v0⟩ := q
    simp only [alInsert] at h
    split_ifs at h with h0
    · rcases List.mem_cons.mp h with h | h
      · exact Or.inl h
      · exact Or.inr (List.mem_cons_of_mem _ h)
    · rcases List.mem_cons.mp h with h | h
      · exact Or.inr (h ▸ List.mem_cons_self _ _)
      · rcases ih h with h | h
        · exact Or.inl h
        · exact Or.inr (List.mem_cons_of_mem _ h)

theorem scan_valid :
    ∀ (cmds : List Command) (A : List (List Byte × List Byte)) (T : List (List Byte)) (C : Nat),
      (∀ c ∈ cmds, validCommand c = true) →
      (∀ p ∈ A, validCommand (Command.set p.1 p.2) = true) →
      (∀ k ∈ T, validCommand (Command.remove k) = true) →
      (∀ p ∈ (List.foldl scanStep (A, T, C) cmds).1,
        validCommand (Command.set p.1 p.2) = true) ∧
      (∀ k ∈ (List.foldl scanStep (A, T, C) cmds).2.1,
        validCommand (Command.remove k) = true) := by
  intro cmds
  induction cmds with
  | nil => intro A T C _ hA hT; exact ⟨hA, hT⟩
  | cons c cs ih =>
    intro A T C hcs hA hT
    have hc : validCommand c = true := hcs c (List.mem_cons_self _ _)
    have hcs' : ∀ x ∈ cs, validCommand x = true :=
      fun x hx => hcs x (List.mem_cons_of_mem _ hx)
    simp only [List.foldl_cons]
    cases c with
    | set k v =>
      simp only [scanStep]
      refine ih (alInsert A k v) (setErase T k) (C + 1) hcs' ?_ ?_
      · intro p hp
        rcases mem_alInsert A k v p hp with h | h
        · subst h; exact hc
        · exact hA p h
      · intro x hx
        exact hT x ((mem_setErase T k x).mp hx).1
    | remove k =>
      simp only [scanStep]
      refine ih (alErase A k) (setInsert T k) (C + 1) hcs' ?_ ?_
      · intro p hp
        exact hA p (List.mem_of_mem_filter hp)
      · intro x hx
        rcases (mem_setInsert T k x).mp hx with h | h
        · subst h; exact hc
        · exact hT x h
    | get k =>
      simp only [scanStep]
      exact ih A T C hcs' hA hT
    | reset =>
      simp only [scanStep]
      exact ih A T C hcs' hA hT

theorem scan_lookup :
    ∀ (cmds : List Command) (A : List (List Byte × List Byte)) (T : List (List Byte)) (C : Nat)
      (m : List Byte → Option (Option (List Byte))),
      (∀ k v, alLookup A k = some v ↔ m k = some (some v)) →
      (∀ k, k ∈ T ↔ m k = some none) →
      (∀ k v, alLookup (List.foldl scanStep (A, T, C) cmds).1 k = some v ↔
        List.foldl segEffectStep m cmds k = some (some v)) ∧
      (∀ k, k ∈ (List.foldl scanStep (A, T, C) cmds).2.1 ↔
        List.foldl segEffectStep m cmds k = some none) := by
  intro cmds
  induction cmds with
  | nil => intro A T C m hA hT; exact ⟨hA, hT⟩
  | cons c cs ih =>
    intro A T C m hA hT
    simp only [List.foldl_cons]
    cases c with
    | set k0 v0 =>
      simp only [scanStep, segEffectStep]
      refine ih (alInsert A k0 v0) (setErase T k0) (C + 1) _ ?_ ?_
      · intro k v
        rw [alLookup_alInsert]
        by_cases h : k0 = k
        · subst h
          rw [if_pos rfl, if_pos rfl]
          simp
        · rw [if_neg h, if_neg (fun hc => h hc.symm)]
          exact hA k v
      · intro k
        rw [mem_setErase]
        by_cases h : k = k0
        · subst h
          rw [if_pos rfl]
          simp
        · rw [if_neg h]
          constructor
          · intro hm; exact (hT k).mp hm.1
          · intro hm; exact ⟨(hT k).mpr hm, h⟩
    | remove k0 =>
      simp only [scanStep, segEffectStep]
      refine ih (alErase A k0) (setInsert T k0) (C + 1) _ ?_ ?_
      · intro k v
        rw [alLookup_alErase]
        by_cases h : k0 = k
        · subst h
          rw [if_pos rfl, if_pos rfl]
          simp
        · rw [if_neg h, if_neg (fun hc => h hc.symm)]
          exact hA k v
      · intro k
        rw [mem_setInsert]
        by_cases h : k = k0
        · subst h
          rw [if_pos rfl]
          simp
        · rw [if_neg h]
          constructor
          · rintro (hc | hm)
            · exact absurd hc h
            · exact (hT k).mp hm
          · intro hm; exact Or.inr ((hT k).mpr hm)
    | get k0 =>
      simp only [scanStep, segEffectStep]
      exact ih A T C m hA hT
    | reset =>
      simp only [scanStep, segEffectStep]
      exact ih A T C m hA hT

theorem alInsert_keys_mem (l : List (List Byte × List Byte)) (k v x : List Byte)
    (h : x ∈ (alInsert l k v).map Prod.fst) : x = k ∨ x ∈ l.map Prod.fst := by
  rcases List.mem_map.mp h with ⟨p, hp, hx⟩
  rcases mem_alInsert l k v p hp with h1 | h1
  · exact Or.inl (by rw [← hx, h1])
  · exact Or.inr (hx ▸ List.mem_map_of_mem Prod.fst h1)

theorem alInsert_keys_nodup (l : List (List Byte × List Byte)) (k v : List Byte)
    (h : (l.map Prod.fst).Nodup) : ((alInsert l k v).map Prod.fst).Nodup := by
  induction l with
  | nil => simp [alInsert]
  | cons p t ih =>
    obtain ⟨k0, v0⟩ := p
    simp only [List.map_cons, List.nodup_cons] at h
    simp only [alInsert]
    split_ifs with h0
    · subst h0
      simp only [List.map_cons, List.nodup_cons]
      exact h
    · simp only [List.map_cons, List.nodup_cons]
      refine ⟨?_, ih h.2⟩
      intro hc
      rcases alInsert_keys_mem t k v k0 hc with h1 | h1
      · exact h0 h1
      · exact h.1 h1

theorem alErase_keys_nodup (l : List (List Byte × List Byte)) (k : List Byte)
    (h : (l.map Prod.fst).Nodup) : ((alErase l k).map Prod.fst).Nodup :=
  ((List.filter_sublist l).map Prod.fst).nodup h

theorem scan_keys_nodup :
    ∀ (cmds : List Command) (A : List (List Byte × List Byte)) (T : List (List Byte)) (C : Nat),
      (A.map Prod.fst).Nodup →
      ((List.foldl scanStep (A, T, C) cmds).1.map Prod.fst).Nodup := by
  intro cmds
  induction cmds with
  | nil => intro A T C h; exact h
  | cons c cs ih =>
    intro A T C h
    simp only [List.foldl_cons]
    cases c with
    | set k v =>
      simp only [scanStep]
      exact ih _ _ _ (alInsert_keys_nodup A k v h)
    | remove k =>
      simp only [scanStep]
      exact ih _ _ _ (alErase_keys_nodup A k h)
    | get k =>
      simp only [scanStep]
      exact ih A T C h
    | reset =>
      simp only [scanStep]
      exact ih A T C h

/-! ### Segment effect computation -/

theorem foldl_segEffectStep (cmds : List Command) :
    ∀ (m : List Byte → Option (Option (List Byte))) (k : List Byte),
      List.foldl segEffectStep m cmds k =
        match List.foldl segEffectStep (fun _ => none) cmds k with
        | some e => some e
        | none => m k := by
  induction cmds with
  | nil => intro m k; rfl
  | cons c cs ih =>
    intro m k
    simp only [List.foldl_cons]
    rw [ih (segEffectStep m c) k, ih (segEffectStep (fun _ => none) c) k]
    cases hF : List.foldl segEffectStep (fun _ => none) cs k with
    | some e => rfl
    | none =>
      cases c with
      | set k0 v0 =>
        simp only [segEffectStep]
        split_ifs <;> rfl
      | remove k0 =>
        simp only [segEffectStep]
        split_ifs <;> rfl
      | get k0 => rfl
      | reset => rfl

theorem segEffect_append (xs ys : List Command) (k : List Byte) :
    segEffect (xs ++ ys) k =
      match segEffect ys k with
      | some e => some e
      | none => segEffect xs k := by
  unfold segEffect
  rw [List.foldl_append]
  exact foldl_segEffectStep ys (List.foldl segEffectStep (fun _ => none) xs) k

theorem segEffect_removes (tombs : List (List Byte)) (k : List Byte) :
    segEffect (tombs.map Command.remove) k = if k ∈ tombs then some none else none := by
  induction tombs with
  | nil => simp [segEffect]
  | cons t ts ih =>
    simp only [List.map_cons]
    have h1 : segEffect (Command.remove t :: ts.map Command.remove) k =
        match segEffect (ts.map Command.remove) k with
        | some e => some e
        | none => segEffectStep (fun _ => none) (Command.remove t) k := by
      unfold segEffect
      simp only [List.foldl_cons]
      exact foldl_segEffectStep (ts.map Command.remove) (segEffectStep (fun _ => none) (Command.remove t)) k
    rw [h1, ih]
    by_cases hts : k ∈ ts
    · rw [if_pos hts, if_pos (List.mem_cons_of_mem _ hts)]
    · rw [if_neg hts]
      simp only [segEffectStep]
      by_cases ht : k = t
      · rw [if_pos ht, if_pos (List.mem_cons.mpr (Or.inl ht))]
      · rw [if_neg ht, if_neg (by simp [ht, hts])]

theorem alLookup_mem_keys (l : List (List Byte × List Byte)) (k v : List Byte)
    (h : alLookup l k = some v) : k ∈ l.map Prod.fst := by
  induction l with
  | nil => simp [alLookup] at h
  | cons p t ih =>
    obtain ⟨k0, v0⟩ := p
    simp only [alLookup] at h
    split_ifs at h with h0
    · simp [← h0]
    · simp only [List.map_cons, List.mem_cons]
      exact Or.inr (ih h)

theorem segEffect_sets (alive : List (List Byte × List Byte))
    (hnd : (alive.map Prod.fst).Nodup) (k : List Byte) :
    segEffect (alive.map fun p => Command.set p.1 p.2) k =
      match alLookup alive k with
      | some v => some (some v)
      | none => none := by
  induction alive with
  | nil => simp [segEffect, alLookup]
  | cons p t ih =>
    obtain ⟨k0, v0⟩ := p
    simp only [List.map_cons, List.nodup_cons] at hnd
    simp only [List.map_cons]
    have h1 : segEffect (Command.set k0 v0 :: t.map fun p => Command.set p.1 p.2) k =
        match segEffect (t.map fun p => Command.set p.1 p.2) k with
        | some e => some e
        | none => segEffectStep (fun _ => none) (Command.set k0 v0) k := by
      unfold segEffect
      simp only [List.foldl_cons]
      exact foldl_segEffectStep (t.map fun p => Command.set p.1 p.2)
        (segEffectStep (fun _ => none) (Command.set k0 v0)) k
    rw [h1, ih hnd.2]
    simp only [alLookup]
    cases hl : alLookup t k with
    | some v =>
      have hk : k ∈ t.map Prod.fst := alLookup_mem_keys t k v hl
      rw [if_neg (fun h0 => hnd.1 (by rw [h0]; exact hk))]
    | none =>
      simp only [segEffectStep]
      by_cases h0 : k0 = k
      · rw [if_pos h0, if_pos h0.symm]
      · rw [if_neg h0, if_neg (fun hc => h0 hc.symm)]

/-! ### The compacted segment reproduces the per-key effect -/

theorem compacted_effect (cmds : List Command) :
    ∀ k, segEffect
        (((scanRecords cmds).1.map fun p => Command.set p.1 p.2) ++
          ((scanRecords cmds).2.1.map Command.remove)) k =
      segEffect cmds k := by
  intro k
  obtain ⟨hA, hT⟩ := scan_lookup cmds [] [] 0 (fun _ => none)
    (fun k v => by simp [alLookup]) (fun k => by simp)
  have hA : ∀ k v, alLookup (scanRecords cmds).1 k = some v ↔
      segEffect cmds k = some (some v) := hA
  have hT : ∀ k, k ∈ (scanRecords cmds).2.1 ↔ segEffect cmds k = some none := hT
  have hnd : (((scanRecords cmds).1).map Prod.fst).Nodup :=
    scan_keys_nodup cmds [] [] 0 (by simp)
  have heff : ∀ k, List.foldl segEffectStep (fun _ => none) cmds k = segEffect cmds k :=
    fun _ => rfl
  rw [segEffect_append, segEffect_removes, segEffect_sets _ hnd k]
  by_cases hkT : k ∈ (scanRecords cmds).2.1
  · rw [if_pos hkT]
    exact ((hT k).mp hkT).symm
  · rw [if_neg hkT]
    cases hl : alLookup (scanRecords cmds).1 k with
    | some v =>
      exact ((hA k v).mp hl).symm
    | none =>
      cases he : segEffect cmds k with
      | none => rfl
      | some e =>
        cases e with
        | none => exact absurd ((hT k).mpr he) hkT
        | some v =>
          rw [(hA k v).mpr he] at hl
          exact Option.noConfusion hl


theorem compactedContent_parse (cmds : List Command)
    (hv : ∀ c ∈ cmds, validCommand c = true) :
    parseRecords (compactedContent (scanRecords cmds).1 (scanRecords cmds).2.1) =
      .ok (((scanRecords cmds).1.map fun p => Command.set p.1 p.2) ++
        ((scanRecords cmds).2.1.map Command.remove)) := by
  obtain ⟨hvA, hvT⟩ := scan_valid cmds [] [] 0 hv (by simp) (by simp)
  have hcc : compactedContent (scanRecords cmds).1 (scanRecords cmds).2.1 =
      ((((scanRecords cmds).1.map fun p => Command.set p.1 p.2) ++
        ((scanRecords cmds).2.1.map Command.remove)).map serialize).flatten := by
    unfold compactedContent
    rw [List.map_append, List.flatten_append, List.map_map, List.map_map]
    rfl
  rw [hcc]
  apply parseRecords_concat
  intro c hc
  rcases List.mem_append.mp hc with h | h
  · rcases List.mem_map.mp h with ⟨p, hp, he⟩
    exact he ▸ hvA p hp
  · rcases List.mem_map.mp h with ⟨x, hx, he⟩
    exact he ▸ hvT x hx

theorem compactedContent_length (cmds : List Command) (content : List Byte)
    (hparse : parseRecords content = .ok cmds) :
    (compactedContent (scanRecords cmds).1 (scanRecords cmds).2.1).length ≤
      content.length := by
  have hlen := (parseRecords_spec content cmds hparse).1
  have hsz := scan_size cmds [] [] 0
  have hcc : (compactedContent (scanRecords cmds).1 (scanRecords cmds).2.1).length =
      sumSetSizes (scanRecords cmds).1 + sumRemoveSizes (scanRecords cmds).2.1 := by
    unfold compactedContent sumSetSizes sumRemoveSizes
    rw [List.length_append, List.length_flatten, List.length_flatten,
      List.map_map, List.map_map]
    rfl
  rw [hcc]
  simp only [sumSetSizes, sumRemoveSizes, scanRecords]
  simp only [sumSetSizes, sumRemoveSizes, List.map_nil, List.sum_nil] at hsz
  omega
/-- C6: compaction of a sealed segment `fidx` whose content parses into
`cmds`, with `(alive, tombs, count) := scanRecords cmds` the intra-segment
scan of `compact_log_file`.  (1) If `count = |alive| + |tombs|` the
compactor is a no-op on the whole state.  (2) Under its literal guard
(reached only past the count check) the delete branch removes the segment
file.  (3) That guard is dead code: `alive` and `tombs` both empty forces
`count = 0 = |alive| + |tombs|`, so such a segment is handled by the
no-op branch.  (4) Otherwise the segment is replaced by a file of size at
most the pre-compaction size which parses back, and whose replay has the
same final per-key effect (last `Set` per surviving key, `Remove` for each
tombstoned key) as replay of the original records; other segments are
untouched. -/
theorem claim_compaction (st : KvState) (fidx : Nat) (content : List Byte)
    (cmds : List Command)
    (hfile : st.files fidx = some content)
    (hparse : parseRecords content = .ok cmds) :
    ((scanRecords cmds).2.2 = (scanRecords cmds).1.length + (scanRecords cmds).2.1.length →
      compactLogFile st fidx = .ok st) ∧
    ((scanRecords cmds).2.2 ≠ (scanRecords cmds).1.length + (scanRecords cmds).2.1.length →
      (scanRecords cmds).1 = [] → (scanRecords cmds).2.1 = [] →
      compactLogFile st fidx = .ok { st with files := updateFile st.files fidx none }) ∧
    ((scanRecords cmds).1 = [] → (scanRecords cmds).2.1 = [] →
      (scanRecords cmds).2.2 = (scanRecords cmds).1.length + (scanRecords cmds).2.1.length) ∧
    ((scanRecords cmds).2.2 ≠ (scanRecords cmds).1.length + (scanRecords cmds).2.1.length →
      ∃ st' newContent newCmds,
        compactLogFile st fidx = .ok st' ∧
        st'.files fidx = some newContent ∧
        (∀ j, j ≠ fidx → st'.files j = st.files j) ∧
        newContent.length ≤ content.length ∧
        parseRecords newContent = .ok newCmds ∧
        (∀ k, segEffect newCmds k = segEffect cmds k)) := by
  have hdead : (scanRecords cmds).1 = [] → (scanRecords cmds).2.1 = [] →
      (scanRecords cmds).2.2 = (scanRecords cmds).1.length + (scanRecords cmds).2.1.length := by
    intro hA hT
    have h0 : (scanRecords cmds).2.2 = 0 :=
      scan_count_zero cmds [] [] 0 (fun _ _ => rfl) hA hT
    rw [h0, hA, hT]
    rfl
  refine ⟨?_, ?_, hdead, ?_⟩
  · intro h
    simp only [compactLogFile, hfile, hparse]
    rw [if_pos h]
  · intro hne hA hT
    simp only [compactLogFile, hfile, hparse]
    rw [if_neg hne, if_pos ⟨hA, hT⟩]
  · intro hne
    have hcne : ¬((scanRecords cmds).1 = [] ∧ (scanRecords cmds).2.1 = []) :=
      fun h => hne (hdead h.1 h.2)
    refine ⟨{ st with
        files := updateFile st.files fidx
          (some (compactedContent (scanRecords cmds).1 (scanRecords cmds).2.1)),
        index := patchIndex fidx st.index
          (buildFileIndex fidx 0 (scanRecords cmds).1) },
      compactedContent (scanRecords cmds).1 (scanRecords cmds).2.1,
      ((scanRecords cmds).1.map fun p => Command.set p.1 p.2) ++
        ((scanRecords cmds).2.1.map Command.remove), ?_, ?_, ?_, ?_, ?_, ?_⟩
    · simp only [compactLogFile, hfile, hparse]
      rw [if_neg hne, if_neg hcne]
    · simp [updateFile]
    · intro j hj
      simp [updateFile, hj]
    · exact compactedContent_length cmds content hparse
    · exact compactedContent_parse cmds (parseRecords_spec content cmds hparse).2
    · exact compacted_effect cmds

def W6content : List Byte :=
  serialize (Command.set [107] [118]) ++ serialize (Command.set [107] [119])

def W6cmds : List Command := [Command.set [107] [118], Command.set [107] [119]]

def W6st : KvState := { initState with files := updateFile initState.files 1 (some W6content) }

theorem claim_compaction_witness :
    ∃ st' newContent newCmds,
      compactLogFile W6st 1 = .ok st' ∧
      st'.files 1 = some newContent ∧
      (∀ j, j ≠ 1 → st'.files j = W6st.files j) ∧
      newContent.length ≤ W6content.length ∧
      parseRecords newContent = .ok newCmds ∧
      (∀ k, segEffect newCmds k = segEffect W6cmds k) :=
  (claim_compaction W6st 1 W6content W6cmds rfl rfl).2.2.2 (by decide)

end KvLog
